import Mathlib

/-!
Verification development for the Solana token management suite's compliance
monitoring engine.  The polling checker (`analyse.py`, class `PeriodicChecker`)
and the push-subscription monitor (`whitelist.py`, class `WhitelistMonitorBot`)
are embedded shallowly: token-balance records, the balance-delta transfer
reconstruction, the whitelist/greylist classification, the multi-pass
propagation loop of `run_check`, the paginated signature frontier, the
push-mode dedup deque, and the reconciliation check.
-/

set_option autoImplicit false
set_option maxRecDepth 8000
set_option maxHeartbeats 1000000

namespace TokenSuite

/-- One entry of `pre_token_balances` / `post_token_balances` of a transaction:
the owner wallet, the token mint, and the raw integer amount
(`ui_token_amount.amount`).  Mirrors the fields read by
`PeriodicChecker._analyze_transfers` (analyse.py lines 377-382). -/
structure TokenBalance where
  owner : String
  mint : String
  amount : Int
  deriving DecidableEq

/-- The part of a transaction's metadata consumed by the transfer
reconstruction: the pre and post token-balance snapshots. -/
structure TxMeta where
  preTokenBalances : List TokenBalance
  postTokenBalances : List TokenBalance
  deriving DecidableEq

/-- An entry of the append-only audit ledger (`transactions.jsonl`).
`transfer` entries carry the status strings used by the source
(`"AUTHORIZED_TRANSFER"` / `"VIOLATION"` in the polling checker,
`"AUTHORIZED"` / `"VIOLATION_FROZEN"` in the push monitor);
`frozenByScript` is the `"ACCOUNT_FROZEN_BY_SCRIPT"` entry appended by
`PeriodicChecker._freeze_account` with the freeze transaction's own
signature (analyse.py line 365). -/
inductive Event where
  | transfer (sig status sender recipient : String) (amount : ℚ)
  | frozenByScript (freezeSig wallet : String)
  deriving DecidableEq

/-- The signatures of the transfer entries of a ledger fragment, in order.
`frozenByScript` entries are not transfer entries and are skipped. -/
def transferSigs : List Event → List String
  | [] => []
  | Event.transfer sig _ _ _ _ :: rest => sig :: transferSigs rest
  | Event.frozenByScript _ _ :: rest => transferSigs rest

/-- Python's `defaultdict(lambda: 0)` update `d[k] += delta` on an
insertion-ordered dict, as used for `owner_balances`: the first touch of a key
appends it, later touches update in place. -/
def addDelta : List (String × Int) → String → Int → List (String × Int)
  | [], w, d => [(w, d)]
  | (k, v) :: rest, w, d =>
      if k = w then (k, v + d) :: rest else (k, v) :: addDelta rest w d

/-- `owner_balances` of `PeriodicChecker._analyze_transfers`
(analyse.py lines 376-382): subtract every pre-balance raw amount of the
monitored mint, add every post-balance raw amount, keyed by owner in
insertion order. -/
def ownerBalances (mint : String) (meta : TxMeta) : List (String × Int) :=
  let afterPre := meta.preTokenBalances.foldl
    (fun acc b => if b.mint = mint then addDelta acc b.owner (-b.amount) else acc) []
  meta.postTokenBalances.foldl
    (fun acc b => if b.mint = mint then addDelta acc b.owner b.amount else acc) afterPre

/-- The sender/recipient/amount selection of `_analyze_transfers`
(analyse.py lines 384-387): iterate the owner deltas; a negative delta
overwrites the sender and the amount, a positive delta overwrites the
recipient.  The amount is the raw magnitude of the last negative delta. -/
def pickSR (bal : List (String × Int)) : Option String × Option String × Int :=
  bal.foldl
    (fun acc p =>
      if p.2 < 0 then (some p.1, acc.2.1, -p.2)
      else if 0 < p.2 then (acc.1, some p.1, acc.2.2)
      else acc)
    (none, none, 0)

/-- The guard of `_analyze_transfers` (analyse.py line 373): the transaction
is relevant only if some pre or post token balance is for the monitored
mint. -/
def relevantTx (mint : String) (meta : TxMeta) : Bool :=
  (meta.preTokenBalances ++ meta.postTokenBalances).any (fun b => b.mint == mint)

/-- `TOKEN_DECIMALS = 9` (analyse.py line 69). -/
def tokenDecimals : Nat := 9

/-- The UI amount logged for a raw delta magnitude:
`abs(change) / (10**TOKEN_DECIMALS)` (analyse.py line 386), as an exact
rational. -/
def uiAmount (raw : Int) : ℚ := Rat.divInt raw (10 ^ tokenDecimals)

/-- The `--freezesend` / `--freezereceive` policy flags of the polling
checker (analyse.py lines 256-257). -/
structure Flags where
  freezeSender : Bool
  freezeRecipient : Bool
  deriving DecidableEq

/-- The ledger entries appended by `PeriodicChecker._freeze_account` for one
wallet: on success the chain assigns the freeze transaction a signature and
an `ACCOUNT_FROZEN_BY_SCRIPT` entry is appended (analyse.py line 365); on
failure nothing is appended (line 368-370).  `freezeSig w` is the signature
the chain would assign to the freeze transaction for wallet `w`, `none`
when the freeze fails. -/
def freezeEventsFor (freezeSig : String → Option String) (w : String) : List Event :=
  match freezeSig w with
  | some f => [Event.frozenByScript f w]
  | none => []

/-- The freeze actions taken on a violation (analyse.py lines 398-401):
the sender's account if `--freezesend`, then the recipient's if
`--freezereceive`, each appending its own ledger entry on success. -/
def violationFreezeEvents (flags : Flags) (freezeSig : String → Option String)
    (s r : String) : List Event :=
  (if flags.freezeSender then freezeEventsFor freezeSig s else [])
    ++ (if flags.freezeRecipient then freezeEventsFor freezeSig r else [])

/-- `PeriodicChecker._analyze_transfers` (analyse.py lines 372-408): if the
transaction touches the monitored mint and the delta scan yields a sender,
a recipient and a positive amount, classify against `monitored_wallets`:
a recipient outside it is a VIOLATION — the recipient is added to the
greylist, the configured freeze actions run (sender first, then recipient,
each logging its own entry on success), and then the VIOLATION transfer
entry is appended; otherwise an AUTHORIZED_TRANSFER entry is appended.
Returns the new greylist and the ledger entries appended, in order. -/
def analyzeTransfers (flags : Flags) (freezeSig : String → Option String)
    (sig : String) (meta : TxMeta) (mint : String)
    (monitored grey : List String) : List String × List Event :=
  if relevantTx mint meta then
    match pickSR (ownerBalances mint meta) with
    | (some s, some r, a) =>
        if 0 < a then
          if r ∈ monitored then
            (grey, [Event.transfer sig "AUTHORIZED_TRANSFER" s r (uiAmount a)])
          else
            (grey.insert r,
              violationFreezeEvents flags freezeSig s r
                ++ [Event.transfer sig "VIOLATION" s r (uiAmount a)])
        else (grey, [])
    | _ => (grey, [])
  else (grey, [])

/-- The push monitor's classification of a reconstructed transfer
(`WhitelistMonitorBot._log_transfer_if_present`, whitelist.py lines
369-371): the recipient is checked against `self.whitelist` alone —
`AUTHORIZED` if a member, else `VIOLATION_FROZEN`.  The monitor bot keeps
no greylist. -/
def pushTransferStatus (whitelist : List String) (recipient : String) : String :=
  if recipient ∈ whitelist then "AUTHORIZED" else "VIOLATION_FROZEN"

/-- Whether a ledger status string denotes an authorized transfer, across
both ingestion modes. -/
def isAuthorizedStatus (status : String) : Bool :=
  status == "AUTHORIZED" || status == "AUTHORIZED_TRANSFER"

end TokenSuite

namespace TokenSuite

/-! ## Signature frontier: `PeriodicChecker.get_new_signatures_paginated` -/

/-- The page size of the history requests: `limit = 1000`
(analyse.py line 272). -/
def pageLimit : Nat := 1000

/-- Whether a fetched page contains the cursor's last-known signature
(the `found_last_known` scan, analyse.py lines 284-287). -/
def pageHasCursor (lastKnown : Option String) (batch : List String) : Bool :=
  match lastKnown with
  | none => false
  | some b => batch.contains b

/-- The signatures of one page collected before the last-known signature:
the scan appends every signature until it hits the cursor
(analyse.py lines 284-288). -/
def beforeCursor (lastKnown : Option String) (batch : List String) : List String :=
  match lastKnown with
  | none => batch
  | some b => batch.takeWhile (fun s => s != b)

/-- The pagination loop of `get_new_signatures_paginated`
(analyse.py lines 278-291) over a fixed newest-first history `remaining`:
request a page of `pageLimit` entries, collect the entries before the
last-known signature, and stop when the page contained the cursor, was
shorter than the limit, or was empty; otherwise continue behind the page.
The first argument bounds the number of page requests. -/
def collectNewFuel : Nat → List String → Option String → List String
  | 0, _, _ => []
  | _ + 1, [], _ => []
  | fuel + 1, x :: rest, lastKnown =>
      if pageHasCursor lastKnown ((x :: rest).take pageLimit)
          || decide (((x :: rest).take pageLimit).length < pageLimit) then
        beforeCursor lastKnown ((x :: rest).take pageLimit)
      else
        beforeCursor lastKnown ((x :: rest).take pageLimit)
          ++ collectNewFuel fuel ((x :: rest).drop pageLimit) lastKnown

/-- The pagination loop over the whole history: the page count is bounded
by the history length, so that much fuel always suffices (each further page
request consumes a full page of `pageLimit ≥ 1` entries). -/
def collectNew (hist : List String) (lastKnown : Option String) : List String :=
  collectNewFuel hist.length hist lastKnown

/-- `PeriodicChecker.get_new_signatures_paginated` (analyse.py lines
269-296): `fetched` is the wallet's newest-first history as the node
reports it, `none` when the fetch raises an unrecoverable error — the
`except` branch then returns the empty list (lines 294-296); on success the
collected signatures are returned reversed, oldest first (line 293). -/
def getNewSignaturesPaginated (fetched : Option (List String))
    (lastKnown : Option String) : List String :=
  match fetched with
  | none => []
  | some history => (collectNew history lastKnown).reverse

end TokenSuite

namespace TokenSuite

/-! ## The polling run: `PeriodicChecker.run_check` -/

/-- Lexicographic comparison of code-point lists: the order Python uses to
compare strings. -/
def lexLeN : List Nat → List Nat → Bool
  | [], _ => true
  | _ :: _, [] => false
  | x :: xs, y :: ys =>
      if x < y then true else if y < x then false else lexLeN xs ys

/-- Python's string order: lexicographic on code points. -/
def strLe (a b : String) : Bool :=
  lexLeN (a.data.map Char.toNat) (b.data.map Char.toNat)

/-- Ordered insertion of a string below the first not-smaller element;
the building block of `sortStr`. -/
def insSorted (s : String) : List String → List String
  | [] => [s]
  | x :: xs => if strLe s x then s :: x :: xs else x :: insSorted s xs

/-- `sorted(...)` over strings, as used for the deterministic per-pass
analysis order (`sorted(list(signatures_to_analyze_now), key=str)`,
analyse.py line 573). -/
def sortStr (l : List String) : List String := l.foldr insSorted []

/-- Set union of two wallet collections (`whitelist.union(greylist)`,
analyse.py lines 539 and 586), with duplicates removed; only membership of
the result matters to the run. -/
def unionL (a b : List String) : List String :=
  (a ++ b).foldl (fun acc x => acc.insert x) []

/-- Lookup in the persisted cursor map `state` (`state.get(wallet_address)`,
analyse.py line 551). -/
def lookupC : List (String × String) → String → Option String
  | [], _ => none
  | (k, v) :: rest, w => if k = w then some v else lookupC rest w

/-- `state[wallet] = sig` (analyse.py line 556): update the wallet's cursor
entry, or append it if absent. -/
def updateC : List (String × String) → String → String → List (String × String)
  | [], w, s => [(w, s)]
  | (k, v) :: rest, w, s =>
      if k = w then (k, s) :: rest else (k, v) :: updateC rest w s

/-- The chain interface used by one polling run, fixed for the run's
duration: the monitored mint, the frontier fetch, the per-signature
transaction lookup (`none` when the transaction cannot be loaded, has no
value, or errored on chain — analyse.py lines 316-324), and the signature
the chain assigns to a wallet's freeze transaction (`none`: the freeze
fails). -/
structure PollEnv where
  mint : String
  fetchNew : String → Option String → List String
  txMeta : String → Option TxMeta
  freezeSig : String → Option String

/-- A fixed chain state: per-wallet newest-first signature history (`none`
models a wallet whose signature fetch raises an unrecoverable error),
transaction metadata, and freeze-transaction signatures. -/
structure ChainState where
  mint : String
  histOf : String → Option (List String)
  metaOf : String → Option TxMeta
  freezeSigOf : String → Option String

/-- The polling environment over a fixed chain state: the frontier fetch is
the paginated fetch over the wallet's unchanged history. -/
def pollEnvOf (c : ChainState) : PollEnv :=
  { mint := c.mint
    fetchNew := fun w cur => getNewSignaturesPaginated (c.histOf w) cur
    txMeta := c.metaOf
    freezeSig := c.freezeSigOf }

/-- One analysis pass of the multi-pass loop, as recorded for the run: the
new unique signatures the pass discovered and analyzed, and the greylist
before and after its analysis phase. -/
structure PassInfo where
  newSigs : List String
  greyBefore : List String
  greyAfter : List String
  deriving DecidableEq

/-- The in-memory state of one `run_check` invocation: the per-run progress
sets (analyse.py lines 529-531), the signatures analyzed in order, the
greylist, the cursor map `state`, the ledger entries appended so far, and
the recorded passes. -/
structure RunState where
  scanned : List String
  allSigs : List String
  processed : List String
  analyzed : List String
  grey : List String
  cursor : List (String × String)
  events : List Event
  trace : List PassInfo
  deriving DecidableEq

/-- Step 4 of a pass for one wallet (analyse.py lines 549-558): fetch the
new signatures since the wallet's cursor; if any were found, add them to
the run's signature set and advance the cursor to the newest one
(`new_signatures[-1]`); mark the wallet scanned either way. -/
def scanWallet (env : PollEnv) (st : RunState) (w : String) : RunState :=
  let new := env.fetchNew w (lookupC st.cursor w)
  match new.getLast? with
  | none => { st with scanned := st.scanned.insert w }
  | some lastSig =>
      { st with
        allSigs := new.foldl (fun a s => a.insert s) st.allSigs
        cursor := updateC st.cursor w lastSig
        scanned := st.scanned.insert w }

/-- `PeriodicChecker.analyze_transaction` (analyse.py lines 315-336): when
the transaction loads successfully the transfer analysis runs; otherwise
the signature is skipped with no state change. -/
def analyzeTransaction (env : PollEnv) (flags : Flags) (sig : String)
    (monitored grey : List String) : List String × List Event :=
  match env.txMeta sig with
  | none => (grey, [])
  | some meta => analyzeTransfers flags env.freezeSig sig meta env.mint monitored grey

/-- One iteration of the per-signature analysis loop (analyse.py lines
575-588): recompute `analysis_monitored_set = whitelist ∪ greylist` live
(line 586), analyze the signature, record it as processed. -/
def analyzeStep (env : PollEnv) (flags : Flags) (whitelist : List String)
    (st : RunState) (sig : String) : RunState :=
  let res := analyzeTransaction env flags sig (unionL whitelist st.grey) st.grey
  { st with
    grey := res.1
    events := st.events ++ res.2
    processed := st.processed.insert sig
    analyzed := st.analyzed ++ [sig] }

/-- `wallets_to_scan_this_pass`, in deterministic sorted order
(analyse.py lines 539-540). -/
def passToScan (whitelist : List String) (st : RunState) : List String :=
  sortStr ((unionL whitelist st.grey).filter (fun w => decide (¬ w ∈ st.scanned)))

/-- `signatures_to_analyze_now`, sorted (analyse.py lines 561, 573). -/
def passToAnalyze (st : RunState) : List String :=
  sortStr (st.allSigs.filter (fun s => decide (¬ s ∈ st.processed)))

/-- The multi-pass loop of `run_check` (analyse.py lines 535-598).  Each
iteration scans the monitored wallets not yet scanned this run (lines
539-558), analyzes the new unique signatures in string-sorted order (lines
561-588), and ends the run when no wallets are due (lines 542-544) or when
the pass produced no greylist growth (lines 594-596); a pass with due
wallets but no new signatures continues into the next pass (lines 563-566).
`fuel` bounds the number of passes; `none` means the bound was hit before
the run ended. -/
def runLoop (env : PollEnv) (flags : Flags) (whitelist : List String) :
    Nat → RunState → Option RunState
  | 0, _ => none
  | fuel + 1, st =>
      if passToScan whitelist st = [] then
        some { st with trace := st.trace ++ [⟨[], st.grey, st.grey⟩] }
      else
        let st₁ := (passToScan whitelist st).foldl (scanWallet env) st
        if passToAnalyze st₁ = [] then
          runLoop env flags whitelist fuel
            { st₁ with trace := st₁.trace ++ [⟨[], st₁.grey, st₁.grey⟩] }
        else
          let st₂ := (passToAnalyze st₁).foldl (analyzeStep env flags whitelist) st₁
          let st₃ :=
            { st₂ with
              trace := st₂.trace ++ [⟨passToAnalyze st₁, st₁.grey, st₂.grey⟩] }
          if st₂.grey.length = st₁.grey.length then some st₃
          else runLoop env flags whitelist fuel st₃

/-- The observable outcome of one `run_check` invocation: skipped on an
empty whitelist (analyse.py lines 524-526), or completed with a final
state. -/
inductive RunOutcome where
  | skipped
  | completed (st : RunState)
  deriving DecidableEq

/-- The initial in-run state: fresh progress sets (analyse.py lines
529-531), the loaded greylist and cursor map, no ledger entries appended
yet. -/
def initState (grey0 : List String) (cursor0 : List (String × String)) : RunState :=
  { scanned := [], allSigs := [], processed := [], analyzed := []
    grey := grey0, cursor := cursor0, events := [], trace := [] }

/-- `PeriodicChecker.run_check` (analyse.py lines 515-614): with an empty
whitelist the run returns before any scanning (lines 524-526); otherwise
the multi-pass loop runs to completion and the final state is persisted. -/
def run_check (env : PollEnv) (flags : Flags) (whitelist grey0 : List String)
    (cursor0 : List (String × String)) (fuel : Nat) : Option RunOutcome :=
  if whitelist = [] then some RunOutcome.skipped
  else (runLoop env flags whitelist fuel (initState grey0 cursor0)).map
    RunOutcome.completed

/-- The greylist file contents after a run: `save_greylist` writes the
sorted final greylist (analyse.py lines 135-137, 603); a skipped run never
reaches it and the file keeps its previous contents. -/
def savedGreylist (o : RunOutcome) (fileBefore : List String) : List String :=
  match o with
  | .skipped => fileBefore
  | .completed st => sortStr st.grey

/-- The cursor-state file contents after a run (`save_state`, analyse.py
line 602); a skipped run never reaches it. -/
def savedCursors (o : RunOutcome) (fileBefore : List (String × String)) :
    List (String × String) :=
  match o with
  | .skipped => fileBefore
  | .completed st => st.cursor

/-- The ledger entries a run appends to `transactions.jsonl`. -/
def appendedEvents (o : RunOutcome) : List Event :=
  match o with
  | .skipped => []
  | .completed st => st.events

/-! ## Push mode: the `WhitelistMonitorBot` dedup deque -/

/-- `deque(maxlen=500)` — the capacity of `processed_signatures`
(whitelist.py line 214). -/
def dedupMaxlen : Nat := 500

/-- Appending to the bounded deque: beyond `dedupMaxlen` entries the oldest
ones are evicted from the front. -/
def dequePush (d : List String) (s : String) : List String :=
  let d' := d ++ [s]
  if dedupMaxlen < d'.length then d'.drop (d'.length - dedupMaxlen) else d'

/-- One delivered notification in push mode
(`WhitelistMonitorBot._analyze_transaction`, whitelist.py lines 263-331):
a signature already in the `processed_signatures` deque is skipped (lines
265-267); otherwise, if the transaction loads and concerns the monitored
token (`relevant`), the signature is appended to the deque and analyzed
(line 323).  The state is the deque paired with the signatures analyzed so
far, in order. -/
def pushStep (relevant : String → Bool) (st : List String × List String)
    (sig : String) : List String × List String :=
  if sig ∈ st.1 then st
  else if relevant sig then (dequePush st.1 sig, st.2 ++ [sig])
  else st

/-- The push monitor's sequential processing of a stream of notification
signatures, starting from an empty deque. -/
def pushRun (relevant : String → Bool) (msgs : List String) :
    List String × List String :=
  msgs.foldl (pushStep relevant) ([], [])

/-! ## Reconciliation: `PeriodicChecker._perform_supply_validation` -/

/-- The distributed total (analyse.py lines 462-473): the sum of the
amounts of every VIOLATION / AUTHORIZED_TRANSFER ledger entry whose sender
is the payer wallet. -/
def totalDistributed (payer : String) (ledger : List Event) : ℚ :=
  ledger.foldl
    (fun acc e =>
      match e with
      | Event.transfer _ status s _ a =>
          if (status = "VIOLATION" ∨ status = "AUTHORIZED_TRANSFER") ∧ s = payer
          then acc + a else acc
      | Event.frozenByScript _ _ => acc)
    0

/-- The on-chain total (analyse.py lines 476-500): the sum of the live
balances of every wallet of the monitored set (`bal w = 0` for a wallet
without a token account). -/
def totalOnChain (bal : String → ℚ) (monitored : List String) : ℚ :=
  monitored.foldl (fun acc w => acc + bal w) 0

/-- `abs(...)` on an exact rational. -/
def ratAbs (q : ℚ) : ℚ := if q < 0 then -q else q

/-- The comparison of `_perform_supply_validation` (analyse.py lines
502-507): success iff the absolute discrepancy between the distributed
total and the on-chain total is below the `1e-4` tolerance.  No issuer
balance is subtracted anywhere. -/
def supplyValidationOk (payer : String) (bal : String → ℚ) (ledger : List Event)
    (monitored : List String) : Bool :=
  decide (ratAbs (totalDistributed payer ledger - totalOnChain bal monitored)
    < Rat.divInt 1 10000)

end TokenSuite

namespace TokenSuite

/-! ## Derived definitions used by the verification -/

/-- The frame of the per-signature analysis phase relative to a starting
state: which fields are untouched, how the analyzed/processed records grow
by the analyzed signatures `added`, that the greylist only grows (and grew
strictly if its length changed), that appended transfer entries carry
analyzed signatures, and that every new greylist member is a non-whitelisted
recipient witnessed by a VIOLATION entry. -/
def StepFrame (W : List String) (st st' : RunState) (added : List String) : Prop :=
  st'.scanned = st.scanned ∧ st'.cursor = st.cursor ∧ st'.allSigs = st.allSigs
  ∧ st'.trace = st.trace
  ∧ st'.analyzed = st.analyzed ++ added
  ∧ (∀ s, s ∈ st'.processed ↔ s ∈ st.processed ∨ s ∈ added)
  ∧ st.grey <:+ st'.grey
  ∧ (st'.grey.length = st.grey.length → st'.grey = st.grey)
  ∧ (∃ evs, st'.events = st.events ++ evs ∧ (transferSigs evs).Sublist added)
  ∧ (∀ x, x ∈ st'.grey → x ∈ st.grey ∨
      (¬ x ∈ W ∧ ∃ sg sn am, Event.transfer sg "VIOLATION" sn x am ∈ st'.events))

/-- The frame of the wallet-scanning phase relative to a starting state:
analysis fields are untouched, the signature set only grows and stays
duplicate-free, the scanned set gains exactly the scanned wallets, and a
wallet whose cursor already points at the frontier still does after the
phase. -/
def ScanFrame (env : PollEnv) (st st' : RunState) (ws : List String) : Prop :=
  st'.processed = st.processed ∧ st'.analyzed = st.analyzed
  ∧ st'.grey = st.grey ∧ st'.events = st.events ∧ st'.trace = st.trace
  ∧ (∀ x, x ∈ st'.scanned ↔ x ∈ st.scanned ∨ x ∈ ws)
  ∧ (∀ x, x ∈ st.allSigs → x ∈ st'.allSigs)
  ∧ (st.allSigs.Nodup → st'.allSigs.Nodup)
  ∧ ((∀ w, w ∈ st.scanned → env.fetchNew w (lookupC st.cursor w) = []) →
      ∀ w, w ∈ st'.scanned → env.fetchNew w (lookupC st'.cursor w) = [])

/-- A frontier fetch is stable if re-fetching from the newest signature a
fetch returned yields nothing new: the property `run_check` relies on when
it advances a cursor to `new_signatures[-1]`. -/
def FrontierStable (env : PollEnv) : Prop :=
  ∀ w cur lastSig, (env.fetchNew w cur).getLast? = some lastSig →
    env.fetchNew w (some lastSig) = []

/-- The invariant of a running `run_check` state: the analyzed signatures
are pairwise distinct, `processed` tracks exactly the analyzed signatures,
the signature set is duplicate-free, transfer entries appended so far carry
pairwise distinct analyzed signatures, the greylist extends the loaded one
with violation recipients only, and scanned wallets have exhausted
frontiers. -/
def RunInv (env : PollEnv) (W grey0 : List String) (st : RunState) : Prop :=
  st.analyzed.Nodup
  ∧ (∀ s, s ∈ st.processed ↔ s ∈ st.analyzed)
  ∧ st.allSigs.Nodup
  ∧ (transferSigs st.events).Sublist st.analyzed
  ∧ grey0 <:+ st.grey
  ∧ (∀ x, x ∈ st.grey → x ∈ grey0 ∨
      (¬ x ∈ W ∧ ∃ sg sn am, Event.transfer sg "VIOLATION" sn x am ∈ st.events))
  ∧ (∀ w, w ∈ st.scanned → env.fetchNew w (lookupC st.cursor w) = [])

/-- The new signatures of the last recorded pass of a completed run. -/
def lastPassNewSigs (o : Option RunOutcome) : Option (List String) :=
  match o with
  | some (RunOutcome.completed st) =>
      (st.trace.getLast?).map (fun p => p.newSigs)
  | _ => none

/-- The owner of the last negative delta of an owner-balance list, the
owner of the last positive delta, and the magnitude of the last negative
delta: the values `_analyze_transfers`' overwrite scan ends up with. -/
def lastNegOwner (bal : List (String × Int)) : Option String :=
  ((bal.filter (fun p => decide (p.2 < 0))).getLast?).map (fun p => p.1)

/-- The owner of the last positive delta. -/
def lastPosOwner (bal : List (String × Int)) : Option String :=
  ((bal.filter (fun p => decide (0 < p.2))).getLast?).map (fun p => p.1)

/-- The magnitude of the last negative delta, `0` if there is none. -/
def lastNegAmt (bal : List (String × Int)) : Int :=
  match (bal.filter (fun p => decide (p.2 < 0))).getLast? with
  | some p => -p.2
  | none => 0

/-- The deque contents determined by an analyzed-signature log: its last
`dedupMaxlen` entries. -/
def dequeOf (log : List String) : List String :=
  log.drop (log.length - dedupMaxlen)

/-- A signature string of `k` identical characters; used to build streams
of pairwise distinct signatures. -/
def aStr (k : Nat) : String := String.mk (List.replicate k 'a')

/-- `dedupMaxlen` pairwise distinct signatures, all different from `aStr 0`. -/
def midSigs : List String :=
  (List.range dedupMaxlen).map (fun k => aStr (k + 1))

/-- A notification stream that delivers one signature, then `dedupMaxlen`
pairwise distinct other signatures, then the first signature again. -/
def pushCexMsgs : List String :=
  aStr 0 :: (midSigs ++ [aStr 0])

/-- Policy with both freeze actions disabled. -/
def noFreeze : Flags := { freezeSender := false, freezeRecipient := false }

/-- Metadata of a plain transfer: wallet `A` sends 5 raw units of mint `M`
to wallet `B`. -/
def simpleMeta : TxMeta :=
  { preTokenBalances := [{ owner := "A", mint := "M", amount := 5 }]
    postTokenBalances := [{ owner := "B", mint := "M", amount := 5 }] }

/-- Metadata of a multi-party transaction on mint `M`: senders `A` (5 raw)
and `B` (3 raw), recipients `C` (4 raw) and `D` (4 raw). -/
def multiMeta : TxMeta :=
  { preTokenBalances :=
      [{ owner := "A", mint := "M", amount := 5 },
       { owner := "B", mint := "M", amount := 3 }]
    postTokenBalances :=
      [{ owner := "C", mint := "M", amount := 4 },
       { owner := "D", mint := "M", amount := 4 }] }

/-- A chain with one transaction `s1` (the `simpleMeta` transfer) in wallet
`A`'s history; both endpoints whitelisted in the demo run. -/
def demoChain : ChainState :=
  { mint := "M"
    histOf := fun w => if w = "A" then some ["s1"] else some []
    metaOf := fun s => if s = "s1" then some simpleMeta else none
    freezeSigOf := fun _ => none }

/-- The final state of `run_check` over `demoChain` with whitelist
`["A", "B"]`: one authorized transfer, no greylist growth. -/
def demoRunFinal : RunState :=
  { scanned := ["B", "A"], allSigs := ["s1"], processed := ["s1"]
    analyzed := ["s1"], grey := [], cursor := [("A", "s1")]
    events := [Event.transfer "s1" "AUTHORIZED_TRANSFER" "A" "B" (uiAmount 5)]
    trace := [⟨["s1"], [], []⟩] }

/-- The final state of `run_check` over `demoChain` with whitelist `["A"]`
only: the transfer to `B` is a violation and `B` is greylisted. -/
def vRunFinal : RunState :=
  { scanned := ["B", "A"], allSigs := ["s1"], processed := ["s1"]
    analyzed := ["s1"], grey := ["B"], cursor := [("A", "s1")]
    events := [Event.transfer "s1" "VIOLATION" "A" "B" (uiAmount 5)]
    trace := [⟨["s1"], [], ["B"]⟩, ⟨[], ["B"], ["B"]⟩, ⟨[], ["B"], ["B"]⟩] }

/-- On-chain balances for the reconciliation scenario: the issuer `P` still
holds 5 tokens, `B` holds the 3 distributed ones. -/
def cBal : String → ℚ := fun w => if w = "P" then 5 else if w = "B" then 3 else 0

/-- Balances with the issuer fully distributed: `P` holds nothing. -/
def cBalZero : String → ℚ := fun w => if w = "B" then 3 else 0

/-- A ledger with one authorized distribution of 3 tokens from `P` to `B`. -/
def cLedger : List Event := [Event.transfer "s" "AUTHORIZED_TRANSFER" "P" "B" 3]

/-- The final state of the immediate re-run of `run_check` over
`demoChain` from `demoRunFinal`'s persisted greylist and cursors: nothing
is fetched or analyzed and the greylist is unchanged. -/
def demoSecondRun : RunState :=
  { scanned := ["B", "A"], allSigs := [], processed := [], analyzed := []
    grey := [], cursor := [("A", "s1")], events := []
    trace := [⟨[], [], []⟩, ⟨[], [], []⟩] }

/-- Option fallback: the first value if present, else the second. -/
def orElseO (a b : Option String) : Option String :=
  match a with
  | some x => some x
  | none => b

/-! ## Frontier pagination lemmas -/

theorem takeWhile_all {p : String → Bool} :
    ∀ l : List String, (∀ x ∈ l, p x = true) → l.takeWhile p = l := by
  intro l h
  induction l with
  | nil => rfl
  | cons a t ih =>
      have ha : p a = true := h a (List.mem_cons_self a t)
      simp [List.takeWhile, ha, ih (fun x hx => h x (List.mem_cons_of_mem a hx))]

theorem takeWhile_append_all {p : String → Bool} :
    ∀ l₁ l₂ : List String, (∀ x ∈ l₁, p x = true) →
      (l₁ ++ l₂).takeWhile p = l₁ ++ l₂.takeWhile p := by
  intro l₁ l₂ h
  induction l₁ with
  | nil => rfl
  | cons a t ih =>
      have ha : p a = true := h a (List.mem_cons_self a t)
      simp [List.takeWhile, ha, ih (fun x hx => h x (List.mem_cons_of_mem a hx))]

theorem takeWhile_append_stop {p : String → Bool} :
    ∀ l₁ l₂ : List String, (∃ x ∈ l₁, p x = false) →
      (l₁ ++ l₂).takeWhile p = l₁.takeWhile p := by
  intro l₁ l₂ h
  induction l₁ with
  | nil => obtain ⟨x, hx, _⟩ := h; exact absurd hx (List.not_mem_nil x)
  | cons a t ih =>
      by_cases ha : p a = true
      · have : ∃ x ∈ t, p x = false := by
          obtain ⟨x, hx, hpx⟩ := h
          rcases List.mem_cons.mp hx with rfl | hxt
          · exact absurd ha (by simp [hpx])
          · exact ⟨x, hxt, hpx⟩
        simp [List.takeWhile, ha, ih this]
      · have ha' : p a = false := by
          cases hpa : p a
          · rfl
          · exact absurd hpa ha
        simp [List.takeWhile, ha']

/-- The result of the pagination loop over the whole history: everything
before the first occurrence of the last-known signature, and the whole
history when there is no cursor or the cursor's signature is absent. -/
theorem collectNewFuel_eq :
    ∀ (n : Nat) (hist : List String), hist.length ≤ n → ∀ lk : Option String,
      collectNewFuel n hist lk =
        (match lk with
          | none => hist
          | some b =>
              if b ∈ hist then hist.takeWhile (fun s => s != b) else hist) := by
  intro n
  induction n with
  | zero =>
      intro hist hlen lk
      have : hist = [] := List.eq_nil_of_length_eq_zero (Nat.le_zero.mp hlen)
      subst this
      cases lk <;> simp [collectNewFuel]
  | succ n ih =>
      intro hist hlen lk
      match hist with
      | [] => cases lk <;> simp [collectNewFuel]
      | x :: rest =>
          have hsplit : (x :: rest).take pageLimit ++ (x :: rest).drop pageLimit
              = x :: rest := List.take_append_drop _ _
          have hdroplen : ((x :: rest).drop pageLimit).length ≤ n := by
            simp only [List.length_drop, List.length_cons]
            simp only [List.length_cons] at hlen
            have : (1 : Nat) ≤ pageLimit := by simp [pageLimit]
            omega
          cases lk with
          | none =>
              have ihn : collectNewFuel n ((x :: rest).drop pageLimit) none
                  = (x :: rest).drop pageLimit := by
                simpa using ih _ hdroplen none
              rw [collectNewFuel]
              simp only [pageHasCursor, Bool.false_or, beforeCursor, decide_eq_true_eq]
              by_cases hshort : ((x :: rest).take pageLimit).length < pageLimit
              · have hfull : (x :: rest).length ≤ pageLimit := by
                  by_contra hc
                  push_neg at hc
                  have := List.length_take pageLimit (x :: rest)
                  omega
                rw [if_pos hshort]
                exact List.take_of_length_le hfull
              · rw [if_neg hshort, ihn]
                exact hsplit
          | some b =>
              have ihs : collectNewFuel n ((x :: rest).drop pageLimit) (some b)
                  = (if b ∈ (x :: rest).drop pageLimit then
                      ((x :: rest).drop pageLimit).takeWhile (fun s => s != b)
                    else (x :: rest).drop pageLimit) := by
                simpa using ih _ hdroplen (some b)
              rw [collectNewFuel]
              simp only [pageHasCursor, beforeCursor]
              by_cases hb : b ∈ (x :: rest).take pageLimit
              · have hcontains : ((x :: rest).take pageLimit).contains b = true :=
                  List.elem_eq_true_of_mem hb
                have hbmem : b ∈ x :: rest :=
                  (List.take_sublist pageLimit (x :: rest)).subset hb
                rw [if_pos (by rw [hcontains]; rfl)]
                rw [if_pos hbmem]
                conv_rhs => rw [← hsplit]
                exact (takeWhile_append_stop _ _ ⟨b, hb, by simp⟩).symm
              · have hcontains : ((x :: rest).take pageLimit).contains b = false := by
                  cases hc : ((x :: rest).take pageLimit).contains b
                  · rfl
                  · exact absurd (List.mem_of_elem_eq_true hc) hb
                have hall : ∀ y ∈ (x :: rest).take pageLimit, (y != b) = true := by
                  intro y hy
                  have hne : y ≠ b := fun h => hb (h ▸ hy)
                  simp [hne]
                by_cases hshort : ((x :: rest).take pageLimit).length < pageLimit
                · have hfull : (x :: rest).length ≤ pageLimit := by
                    by_contra hc
                    push_neg at hc
                    have := List.length_take pageLimit (x :: rest)
                    omega
                  have htake : (x :: rest).take pageLimit = x :: rest :=
                    List.take_of_length_le hfull
                  have hbm : ¬ b ∈ x :: rest := htake ▸ hb
                  rw [if_pos (by rw [decide_eq_true hshort]; exact Bool.or_true _),
                      if_neg hbm, htake]
                  exact takeWhile_all _ (htake ▸ hall)
                · rw [if_neg (by rw [hcontains, decide_eq_false hshort]; simp), ihs,
                      takeWhile_all _ hall]
                  have hbiff : b ∈ x :: rest ↔ b ∈ (x :: rest).drop pageLimit := by
                    constructor
                    · intro h
                      rcases List.mem_append.mp (hsplit ▸ h : b ∈ _ ++ _) with h' | h'
                      · exact absurd h' hb
                      · exact h'
                    · intro h
                      exact (List.drop_sublist pageLimit (x :: rest)).subset h
                  by_cases hbd : b ∈ (x :: rest).drop pageLimit
                  · rw [if_pos hbd, if_pos (hbiff.mpr hbd)]
                    conv_rhs => rw [← hsplit]
                    exact (takeWhile_append_all _ _ hall).symm
                  · rw [if_neg hbd, if_neg (fun h => hbd (hbiff.mp h))]
                    exact hsplit

/-- The result of the pagination loop over the whole history. -/
theorem collectNew_eq (hist : List String) (lk : Option String) :
    collectNew hist lk =
      (match lk with
        | none => hist
        | some b =>
            if b ∈ hist then hist.takeWhile (fun s => s != b) else hist) :=
  collectNewFuel_eq hist.length hist le_rfl lk

/-- Error clause: an unrecoverable fetch failure yields the empty list. -/
theorem getNewSignaturesPaginated_error (lk : Option String) :
    getNewSignaturesPaginated none lk = [] := rfl

/-- Success without a cursor: the whole history, oldest first. -/
theorem getNewSignaturesPaginated_noCursor (hist : List String) :
    getNewSignaturesPaginated (some hist) none = hist.reverse := by
  show (collectNew hist none).reverse = hist.reverse
  rw [collectNew_eq hist none]

/-- Success with a cursor present in the history: exactly the signatures
before the cutoff, oldest first. -/
theorem getNewSignaturesPaginated_cursorMem (hist : List String) (b : String)
    (hb : b ∈ hist) :
    getNewSignaturesPaginated (some hist) (some b)
      = (hist.takeWhile (fun s => s != b)).reverse := by
  show (collectNew hist (some b)).reverse = _
  rw [collectNew_eq hist (some b)]
  simp [hb]

/-- Success with a cursor absent from the history: the whole history,
oldest first. -/
theorem getNewSignaturesPaginated_cursorAbsent (hist : List String) (b : String)
    (hb : ¬ b ∈ hist) :
    getNewSignaturesPaginated (some hist) (some b) = hist.reverse := by
  show (collectNew hist (some b)).reverse = hist.reverse
  rw [collectNew_eq hist (some b)]
  simp [hb]


/-! ## List and map helper lemmas -/

theorem mem_foldl_insert (l : List String) :
    ∀ (acc : List String) (x : String),
      x ∈ l.foldl (fun acc y => acc.insert y) acc ↔ x ∈ acc ∨ x ∈ l := by
  induction l with
  | nil => intro acc x; simp
  | cons y t ih =>
      intro acc x
      simp only [List.foldl_cons]
      rw [ih]
      simp only [List.mem_insert_iff, List.mem_cons]
      tauto

theorem nodup_foldl_insert (l : List String) :
    ∀ acc : List String, acc.Nodup →
      (l.foldl (fun acc y => acc.insert y) acc).Nodup := by
  induction l with
  | nil => intro acc h; simpa
  | cons y t ih => intro acc h; exact ih _ h.insert

theorem mem_unionL (a b : List String) (x : String) :
    x ∈ unionL a b ↔ x ∈ a ∨ x ∈ b := by
  unfold unionL
  rw [mem_foldl_insert]
  simp

theorem insSorted_ne_nil (s : String) : ∀ l : List String, insSorted s l ≠ [] := by
  intro l
  cases l with
  | nil => simp [insSorted]
  | cons y t =>
      by_cases h : strLe s y <;> simp [insSorted, h]

theorem mem_insSorted (s x : String) :
    ∀ l : List String, x ∈ insSorted s l ↔ x = s ∨ x ∈ l := by
  intro l
  induction l with
  | nil => simp [insSorted]
  | cons y t ih =>
      by_cases h : strLe s y
      · simp [insSorted, h]
      · simp only [insSorted, h, if_false, Bool.false_eq_true, List.mem_cons, ih]
        tauto

theorem mem_sortStr (x : String) : ∀ l : List String, x ∈ sortStr l ↔ x ∈ l := by
  intro l
  induction l with
  | nil => simp [sortStr]
  | cons y t ih =>
      show x ∈ insSorted y (sortStr t) ↔ _
      rw [mem_insSorted, ih]
      simp

theorem nodup_insSorted (s : String) :
    ∀ l : List String, l.Nodup → ¬ s ∈ l → (insSorted s l).Nodup := by
  intro l
  induction l with
  | nil => intro _ _; simp [insSorted]
  | cons y t ih =>
      intro hnd hs
      by_cases h : strLe s y
      · rw [insSorted, if_pos h]
        refine List.nodup_cons.mpr ⟨hs, hnd⟩
      · rw [insSorted, if_neg h]
        have hy : ¬ y ∈ insSorted s t := by
          rw [mem_insSorted]
          rintro (rfl | hmem)
          · exact hs (List.mem_cons_self _ _)
          · exact (List.nodup_cons.mp hnd).1 hmem
        exact List.nodup_cons.mpr
          ⟨hy, ih (List.nodup_cons.mp hnd).2
            (fun hc => hs (List.mem_cons_of_mem _ hc))⟩

theorem nodup_sortStr : ∀ l : List String, l.Nodup → (sortStr l).Nodup := by
  intro l
  induction l with
  | nil => intro _; simp [sortStr]
  | cons y t ih =>
      intro hnd
      show (insSorted y (sortStr t)).Nodup
      refine nodup_insSorted _ _ (ih (List.nodup_cons.mp hnd).2) ?_
      rw [mem_sortStr]
      exact (List.nodup_cons.mp hnd).1

theorem sortStr_eq_nil (l : List String) : sortStr l = [] ↔ l = [] := by
  cases l with
  | nil => simp [sortStr]
  | cons y t =>
      constructor
      · intro h
        exact absurd h (insSorted_ne_nil y (sortStr t))
      · intro h
        exact absurd h (by simp)

theorem lookupC_updateC_self :
    ∀ (c : List (String × String)) (w v : String),
      lookupC (updateC c w v) w = some v := by
  intro c
  induction c with
  | nil => intro w v; simp [updateC, lookupC]
  | cons p rest ih =>
      intro w v
      by_cases h : p.1 = w
      · simp [updateC, h, lookupC]
      · simp only [updateC, lookupC, h, if_false]
        exact ih w v

theorem lookupC_updateC_ne :
    ∀ (c : List (String × String)) (w w' v : String), w ≠ w' →
      lookupC (updateC c w v) w' = lookupC c w' := by
  intro c
  induction c with
  | nil =>
      intro w w' v hne
      simp [updateC, lookupC, hne]
  | cons p rest ih =>
      intro w w' v hne
      by_cases h : p.1 = w
      · have h' : p.1 ≠ w' := fun hc => hne (h ▸ hc ▸ rfl)
        simp [updateC, lookupC, h, h', hne]
      · simp only [updateC, lookupC, h, if_false]
        by_cases h' : p.1 = w'
        · simp [lookupC, h']
        · simp only [lookupC, h', if_false]
          exact ih w w' v hne

theorem isSuffix_insert (x : String) (l : List String) : l <:+ l.insert x := by
  by_cases h : x ∈ l
  · rw [List.insert_of_mem h]
  · rw [List.insert_of_not_mem h]
    exact List.suffix_cons x l

theorem suffix_of_length_eq {l₁ l₂ : List String} (h : l₁ <:+ l₂)
    (hlen : l₂.length = l₁.length) : l₂ = l₁ := by
  obtain ⟨t, rfl⟩ := h
  have : t.length = 0 := by
    rw [List.length_append] at hlen
    omega
  rw [List.eq_nil_of_length_eq_zero this]
  rfl

end TokenSuite

namespace TokenSuite

/-! ## Structure of the transfer analysis -/

theorem transferSigs_append (l₁ l₂ : List Event) :
    transferSigs (l₁ ++ l₂) = transferSigs l₁ ++ transferSigs l₂ := by
  induction l₁ with
  | nil => rfl
  | cons e t ih => cases e <;> simp [transferSigs, ih]

theorem transferSigs_freezeEventsFor (fsig : String → Option String) (w : String) :
    transferSigs (freezeEventsFor fsig w) = [] := by
  unfold freezeEventsFor
  cases fsig w <;> rfl

theorem transferSigs_violationFreezeEvents (flags : Flags)
    (fsig : String → Option String) (s r : String) :
    transferSigs (violationFreezeEvents flags fsig s r) = [] := by
  unfold violationFreezeEvents
  rw [transferSigs_append]
  cases flags.freezeSender <;> cases flags.freezeRecipient <;>
    simp [transferSigs_freezeEventsFor, transferSigs]

theorem analyzeTransfers_not_relevant (flags : Flags) (fsig : String → Option String)
    (sig : String) (meta : TxMeta) (mint : String) (monitored grey : List String)
    (hrel : ¬ relevantTx mint meta = true) :
    analyzeTransfers flags fsig sig meta mint monitored grey = (grey, []) := by
  unfold analyzeTransfers
  rw [if_neg hrel]

/-- Reduction of the transfer analysis once the delta scan's result is
known to provide a sender and a recipient. -/
theorem analyzeTransfers_pair (flags : Flags) (fsig : String → Option String)
    (sig : String) (meta : TxMeta) (mint : String) (monitored grey : List String)
    (s r : String) (a : Int)
    (hrel : relevantTx mint meta = true)
    (hp : pickSR (ownerBalances mint meta) = (some s, some r, a)) :
    analyzeTransfers flags fsig sig meta mint monitored grey
      = (if 0 < a then
          if r ∈ monitored then
            (grey, [Event.transfer sig "AUTHORIZED_TRANSFER" s r (uiAmount a)])
          else
            (grey.insert r,
              violationFreezeEvents flags fsig s r
                ++ [Event.transfer sig "VIOLATION" s r (uiAmount a)])
        else (grey, [])) := by
  unfold analyzeTransfers
  rw [hp, if_pos hrel]

theorem analyzeTransfers_no_sender (flags : Flags) (fsig : String → Option String)
    (sig : String) (meta : TxMeta) (mint : String) (monitored grey : List String)
    (orc : Option String) (a : Int)
    (hp : pickSR (ownerBalances mint meta) = (none, orc, a)) :
    analyzeTransfers flags fsig sig meta mint monitored grey = (grey, []) := by
  unfold analyzeTransfers
  rw [hp]
  by_cases hrel : relevantTx mint meta
  · rw [if_pos hrel]
  · rw [if_neg hrel]

theorem analyzeTransfers_no_recipient (flags : Flags) (fsig : String → Option String)
    (sig : String) (meta : TxMeta) (mint : String) (monitored grey : List String)
    (s : String) (a : Int)
    (hp : pickSR (ownerBalances mint meta) = (some s, none, a)) :
    analyzeTransfers flags fsig sig meta mint monitored grey = (grey, []) := by
  unfold analyzeTransfers
  rw [hp]
  by_cases hrel : relevantTx mint meta
  · rw [if_pos hrel]
  · rw [if_neg hrel]

/-- Case analysis of one transfer-analysis invocation: no transfer, an
authorized transfer, or a violation with the recipient greylisted and the
freeze entries appended before the VIOLATION entry. -/
theorem analyzeTransfers_cases (flags : Flags) (fsig : String → Option String)
    (sig : String) (meta : TxMeta) (mint : String) (monitored grey : List String) :
    analyzeTransfers flags fsig sig meta mint monitored grey = (grey, [])
    ∨ (∃ s r a, pickSR (ownerBalances mint meta) = (some s, some r, a) ∧ 0 < a ∧
        relevantTx mint meta = true ∧
        ((r ∈ monitored ∧
          analyzeTransfers flags fsig sig meta mint monitored grey
            = (grey, [Event.transfer sig "AUTHORIZED_TRANSFER" s r (uiAmount a)]))
        ∨ (¬ r ∈ monitored ∧
          analyzeTransfers flags fsig sig meta mint monitored grey
            = (grey.insert r,
                violationFreezeEvents flags fsig s r
                  ++ [Event.transfer sig "VIOLATION" s r (uiAmount a)])))) := by
  by_cases hrel : relevantTx mint meta
  · rcases hp : pickSR (ownerBalances mint meta) with ⟨os, orc, a⟩
    cases os with
    | none => exact Or.inl (analyzeTransfers_no_sender _ _ _ _ _ _ _ _ _ hp)
    | some s =>
        cases orc with
        | none => exact Or.inl (analyzeTransfers_no_recipient _ _ _ _ _ _ _ _ _ hp)
        | some r =>
            have hred := analyzeTransfers_pair flags fsig sig meta mint monitored
              grey s r a hrel hp
            by_cases ha : 0 < a
            · rw [if_pos ha] at hred
              by_cases hr : r ∈ monitored
              · rw [if_pos hr] at hred
                exact Or.inr ⟨s, r, a, rfl, ha, hrel, Or.inl ⟨hr, hred⟩⟩
              · rw [if_neg hr] at hred
                exact Or.inr ⟨s, r, a, rfl, ha, hrel, Or.inr ⟨hr, hred⟩⟩
            · rw [if_neg ha] at hred
              exact Or.inl hred
  · exact Or.inl (analyzeTransfers_not_relevant _ _ _ _ _ _ _ hrel)

end TokenSuite

namespace TokenSuite

theorem analyzeTransaction_grey (env : PollEnv) (flags : Flags) (sig : String)
    (monitored grey : List String) :
    (analyzeTransaction env flags sig monitored grey).1 = grey
    ∨ ∃ r, ¬ r ∈ monitored ∧
        (analyzeTransaction env flags sig monitored grey).1 = grey.insert r ∧
        ∃ sg sn am, Event.transfer sg "VIOLATION" sn r am
          ∈ (analyzeTransaction env flags sig monitored grey).2 := by
  rcases hm : env.txMeta sig with _ | meta
  · have hred : analyzeTransaction env flags sig monitored grey = (grey, []) := by
      unfold analyzeTransaction
      rw [hm]
    rw [hred]
    exact Or.inl rfl
  · have hred : analyzeTransaction env flags sig monitored grey
        = analyzeTransfers flags env.freezeSig sig meta env.mint monitored grey := by
      unfold analyzeTransaction
      rw [hm]
    rw [hred]
    rcases analyzeTransfers_cases flags env.freezeSig sig meta env.mint
        monitored grey with h | ⟨s, r, a, hp, ha, hrel, hcase⟩
    · rw [h]
      exact Or.inl rfl
    · rcases hcase with ⟨hr, heq⟩ | ⟨hr, heq⟩
      · rw [heq]
        exact Or.inl rfl
      · rw [heq]
        exact Or.inr ⟨r, hr, rfl, sig, s, uiAmount a, by simp⟩

theorem analyzeTransaction_transferSigs (env : PollEnv) (flags : Flags)
    (sig : String) (monitored grey : List String) :
    transferSigs (analyzeTransaction env flags sig monitored grey).2 = []
    ∨ transferSigs (analyzeTransaction env flags sig monitored grey).2 = [sig] := by
  rcases hm : env.txMeta sig with _ | meta
  · have hred : analyzeTransaction env flags sig monitored grey = (grey, []) := by
      unfold analyzeTransaction
      rw [hm]
    rw [hred]
    exact Or.inl rfl
  · have hred : analyzeTransaction env flags sig monitored grey
        = analyzeTransfers flags env.freezeSig sig meta env.mint monitored grey := by
      unfold analyzeTransaction
      rw [hm]
    rw [hred]
    rcases analyzeTransfers_cases flags env.freezeSig sig meta env.mint
        monitored grey with h | ⟨s, r, a, hp, ha, hrel, hcase⟩
    · rw [h]
      exact Or.inl rfl
    · rcases hcase with ⟨hr, heq⟩ | ⟨hr, heq⟩
      · rw [heq]
        exact Or.inr rfl
      · rw [heq]
        right
        show transferSigs (violationFreezeEvents flags env.freezeSig s r
          ++ [Event.transfer sig "VIOLATION" s r (uiAmount a)]) = [sig]
        rw [transferSigs_append, transferSigs_violationFreezeEvents]
        rfl

theorem StepFrame_refl (W : List String) (st : RunState) : StepFrame W st st [] :=
  ⟨rfl, rfl, rfl, rfl, by simp, fun s => by simp, List.suffix_refl _,
    fun _ => rfl, ⟨[], by simp, by simp [transferSigs]⟩, fun x hx => Or.inl hx⟩

theorem StepFrame_trans {W : List String} {st st₁ st₂ : RunState}
    {l₁ l₂ : List String} (h₁ : StepFrame W st st₁ l₁)
    (h₂ : StepFrame W st₁ st₂ l₂) : StepFrame W st st₂ (l₁ ++ l₂) := by
  obtain ⟨hs1, hc1, ha1, ht1, han1, hp1, hg1, hl1, ⟨e1, he1, hts1⟩, hv1⟩ := h₁
  obtain ⟨hs2, hc2, ha2, ht2, han2, hp2, hg2, hl2, ⟨e2, he2, hts2⟩, hv2⟩ := h₂
  refine ⟨hs2.trans hs1, hc2.trans hc1, ha2.trans ha1, ht2.trans ht1, ?_, ?_,
    hg1.trans hg2, ?_, ?_, ?_⟩
  · rw [han2, han1, List.append_assoc]
  · intro s
    rw [hp2, hp1]
    simp only [List.mem_append]
    tauto
  · intro hlen
    have hle1 : st.grey.length ≤ st₁.grey.length := hg1.length_le
    have hle2 : st₁.grey.length ≤ st₂.grey.length := hg2.length_le
    have e2' : st₂.grey = st₁.grey := hl2 (by omega)
    have e1' : st₁.grey = st.grey := hl1 (by omega)
    rw [e2', e1']
  · refine ⟨e1 ++ e2, ?_, ?_⟩
    · rw [he2, he1, List.append_assoc]
    · rw [transferSigs_append]
      exact hts1.append hts2
  · intro x hx
    rcases hv2 x hx with hx1 | ⟨hw, sg, sn, am, hev⟩
    · rcases hv1 x hx1 with h | ⟨hw, sg, sn, am, hev⟩
      · exact Or.inl h
      · exact Or.inr ⟨hw, sg, sn, am, by
          rw [he2]
          exact List.mem_append_left _ hev⟩
    · exact Or.inr ⟨hw, sg, sn, am, hev⟩

theorem analyzeStep_frame (env : PollEnv) (flags : Flags) (W : List String)
    (st : RunState) (sig : String) :
    StepFrame W st (analyzeStep env flags W st sig) [sig] := by
  have hgrey := analyzeTransaction_grey env flags sig (unionL W st.grey) st.grey
  have hts := analyzeTransaction_transferSigs env flags sig (unionL W st.grey) st.grey
  refine ⟨rfl, rfl, rfl, rfl, rfl, ?_, ?_, ?_, ?_, ?_⟩
  · intro s
    show s ∈ st.processed.insert sig ↔ _
    rw [List.mem_insert_iff]
    simp only [List.mem_singleton]
    tauto
  · show st.grey <:+ (analyzeTransaction env flags sig (unionL W st.grey) st.grey).1
    rcases hgrey with h | ⟨r, hr, h, _⟩
    · rw [h]
    · rw [h]
      exact isSuffix_insert r st.grey
  · show (analyzeTransaction env flags sig (unionL W st.grey) st.grey).1.length
        = st.grey.length →
      (analyzeTransaction env flags sig (unionL W st.grey) st.grey).1 = st.grey
    rcases hgrey with h | ⟨r, hr, h, _⟩
    · rw [h]
      intro _
      rfl
    · rw [h]
      have hrg : ¬ r ∈ st.grey := fun hc => hr ((mem_unionL W st.grey r).mpr (Or.inr hc))
      rw [List.insert_of_not_mem hrg]
      intro hlen
      simp at hlen
  · refine ⟨(analyzeTransaction env flags sig (unionL W st.grey) st.grey).2, rfl, ?_⟩
    rcases hts with h | h
    · rw [h]
      exact List.nil_sublist _
    · rw [h]
  · intro x hx
    rcases hgrey with h | ⟨r, hr, h, sg, sn, am, hev⟩
    · rw [show (analyzeStep env flags W st sig).grey
          = (analyzeTransaction env flags sig (unionL W st.grey) st.grey).1 from rfl,
        h] at hx
      exact Or.inl hx
    · rw [show (analyzeStep env flags W st sig).grey
          = (analyzeTransaction env flags sig (unionL W st.grey) st.grey).1 from rfl,
        h] at hx
      have hrg : ¬ r ∈ st.grey := fun hc => hr ((mem_unionL W st.grey r).mpr (Or.inr hc))
      rw [List.insert_of_not_mem hrg] at hx
      rcases List.mem_cons.mp hx with rfl | hx'
      · refine Or.inr ⟨fun hc => hr ((mem_unionL W st.grey x).mpr (Or.inl hc)),
          sg, sn, am, ?_⟩
        show _ ∈ st.events ++ _
        exact List.mem_append_right _ hev
      · exact Or.inl hx'

theorem analyzeFold_frame (env : PollEnv) (flags : Flags) (W : List String) :
    ∀ (l : List String) (st : RunState),
      StepFrame W st (l.foldl (analyzeStep env flags W) st) l := by
  intro l
  induction l with
  | nil => intro st; exact StepFrame_refl W st
  | cons sig t ih =>
      intro st
      have h := StepFrame_trans (analyzeStep_frame env flags W st sig)
        (ih (analyzeStep env flags W st sig))
      simpa using h

end TokenSuite

namespace TokenSuite

/-! ## Structure of the wallet-scanning phase -/

theorem getLast?_none_iff (l : List String) : l.getLast? = none ↔ l = [] := by
  cases l with
  | nil => simp
  | cons x t => simp [List.getLast?_concat, List.getLast?]

theorem ScanFrame_refl (env : PollEnv) (st : RunState) : ScanFrame env st st [] :=
  ⟨rfl, rfl, rfl, rfl, rfl, fun x => by simp, fun _ h => h, fun h => h, fun h => h⟩

theorem ScanFrame_trans {env : PollEnv} {st st₁ st₂ : RunState}
    {l₁ l₂ : List String} (h₁ : ScanFrame env st st₁ l₁)
    (h₂ : ScanFrame env st₁ st₂ l₂) : ScanFrame env st st₂ (l₁ ++ l₂) := by
  obtain ⟨hp1, ha1, hg1, he1, ht1, hsc1, hall1, hnd1, hP1⟩ := h₁
  obtain ⟨hp2, ha2, hg2, he2, ht2, hsc2, hall2, hnd2, hP2⟩ := h₂
  refine ⟨hp2.trans hp1, ha2.trans ha1, hg2.trans hg1, he2.trans he1,
    ht2.trans ht1, ?_, fun x hx => hall2 x (hall1 x hx),
    fun h => hnd2 (hnd1 h), fun h => hP2 (hP1 h)⟩
  intro x
  rw [hsc2, hsc1]
  simp only [List.mem_append]
  tauto

theorem scanWallet_frame (env : PollEnv) (hfs : FrontierStable env)
    (st : RunState) (w : String) : ScanFrame env st (scanWallet env st w) [w] := by
  cases hl : (env.fetchNew w (lookupC st.cursor w)).getLast? with
  | none =>
      have hred : scanWallet env st w = { st with scanned := st.scanned.insert w } := by
        simp only [scanWallet, hl]
      rw [hred]
      refine ⟨rfl, rfl, rfl, rfl, rfl, ?_, fun x h => h, fun h => h, ?_⟩
      · intro x
        show x ∈ st.scanned.insert w ↔ _
        rw [List.mem_insert_iff]
        simp only [List.mem_singleton]
        tauto
      · intro hP2 w' hw'
        show env.fetchNew w' (lookupC st.cursor w') = []
        rcases List.mem_insert_iff.mp hw' with rfl | hmem
        · exact (getLast?_none_iff _).mp hl
        · exact hP2 w' hmem
  | some lastSig =>
      have hred : scanWallet env st w = { st with
          allSigs := (env.fetchNew w (lookupC st.cursor w)).foldl
            (fun a s => a.insert s) st.allSigs
          cursor := updateC st.cursor w lastSig
          scanned := st.scanned.insert w } := by
        simp only [scanWallet, hl]
      rw [hred]
      refine ⟨rfl, rfl, rfl, rfl, rfl, ?_, ?_, ?_, ?_⟩
      · intro x
        show x ∈ st.scanned.insert w ↔ _
        rw [List.mem_insert_iff]
        simp only [List.mem_singleton]
        tauto
      · intro x hx
        show x ∈ (env.fetchNew w (lookupC st.cursor w)).foldl
          (fun a s => a.insert s) st.allSigs
        exact (mem_foldl_insert _ _ _).mpr (Or.inl hx)
      · intro hnd
        exact nodup_foldl_insert _ _ hnd
      · intro hP2 w' hw'
        show env.fetchNew w' (lookupC (updateC st.cursor w lastSig) w') = []
        by_cases hww : w = w'
        · subst hww
          rw [lookupC_updateC_self]
          exact hfs w (lookupC st.cursor w) lastSig hl
        · rw [lookupC_updateC_ne _ _ _ _ hww]
          rcases List.mem_insert_iff.mp hw' with rfl | hmem
          · exact absurd rfl hww
          · exact hP2 w' hmem

theorem scanFold_frame (env : PollEnv) (hfs : FrontierStable env) :
    ∀ (ws : List String) (st : RunState),
      ScanFrame env st (ws.foldl (scanWallet env) st) ws := by
  intro ws
  induction ws with
  | nil => intro st; exact ScanFrame_refl env st
  | cons w t ih =>
      intro st
      have h := ScanFrame_trans (scanWallet_frame env hfs st w)
        (ih (scanWallet env st w))
      simpa using h

/-- Scanning wallets whose frontiers are all exhausted changes nothing but
the scanned set. -/
theorem scanFold_empty (env : PollEnv) :
    ∀ (ws : List String) (st : RunState),
      (∀ w, w ∈ ws → env.fetchNew w (lookupC st.cursor w) = []) →
      (ws.foldl (scanWallet env) st)
        = { st with scanned := ws.foldl (fun acc w => acc.insert w) st.scanned } := by
  intro ws
  induction ws with
  | nil => intro st _; rfl
  | cons w t ih =>
      intro st hemp
      have hw : env.fetchNew w (lookupC st.cursor w) = [] :=
        hemp w (List.mem_cons_self _ _)
      have hstep : scanWallet env st w = { st with scanned := st.scanned.insert w } := by
        unfold scanWallet
        rw [hw]
        rfl
      show (t.foldl (scanWallet env) (scanWallet env st w)) = _
      rw [hstep]
      rw [ih { st with scanned := st.scanned.insert w }
        (fun w' hw' => hemp w' (List.mem_cons_of_mem _ hw'))]
      rfl

end TokenSuite

namespace TokenSuite

/-! ## The multi-pass loop -/

theorem mem_passToScan (W : List String) (st : RunState) (w : String) :
    w ∈ passToScan W st ↔ w ∈ unionL W st.grey ∧ ¬ w ∈ st.scanned := by
  unfold passToScan
  rw [mem_sortStr, List.mem_filter]
  simp

theorem passToScan_empty_iff (W : List String) (st : RunState) :
    passToScan W st = [] ↔ ∀ w, w ∈ unionL W st.grey → w ∈ st.scanned := by
  constructor
  · intro h w hw
    by_contra hns
    have : w ∈ passToScan W st := (mem_passToScan W st w).mpr ⟨hw, hns⟩
    rw [h] at this
    exact List.not_mem_nil w this
  · intro h
    by_contra hne
    rcases List.exists_mem_of_ne_nil _ hne with ⟨w, hw⟩
    rcases (mem_passToScan W st w).mp hw with ⟨hm, hns⟩
    exact hns (h w hm)

theorem mem_passToAnalyze (st : RunState) (s : String) :
    s ∈ passToAnalyze st ↔ s ∈ st.allSigs ∧ ¬ s ∈ st.processed := by
  unfold passToAnalyze
  rw [mem_sortStr, List.mem_filter]
  simp

theorem nodup_passToAnalyze (st : RunState) (h : st.allSigs.Nodup) :
    (passToAnalyze st).Nodup :=
  nodup_sortStr _ (h.filter _)

/-- One unfolding of the multi-pass loop. -/
theorem runLoop_succ_eq (env : PollEnv) (flags : Flags) (W : List String)
    (fuel : Nat) (st : RunState) :
    runLoop env flags W (fuel + 1) st =
      (if passToScan W st = [] then
        some { st with trace := st.trace ++ [⟨[], st.grey, st.grey⟩] }
      else if (passToAnalyze ((passToScan W st).foldl (scanWallet env) st)) = [] then
        runLoop env flags W fuel
          { ((passToScan W st).foldl (scanWallet env) st) with trace := ((passToScan W st).foldl (scanWallet env) st).trace ++ [⟨[], ((passToScan W st).foldl (scanWallet env) st).grey, ((passToScan W st).foldl (scanWallet env) st).grey⟩] }
      else if ((passToAnalyze ((passToScan W st).foldl (scanWallet env) st)).foldl (analyzeStep env flags W) ((passToScan W st).foldl (scanWallet env) st)).grey.length = ((passToScan W st).foldl (scanWallet env) st).grey.length then
        some { ((passToAnalyze ((passToScan W st).foldl (scanWallet env) st)).foldl (analyzeStep env flags W) ((passToScan W st).foldl (scanWallet env) st)) with trace := ((passToAnalyze ((passToScan W st).foldl (scanWallet env) st)).foldl (analyzeStep env flags W) ((passToScan W st).foldl (scanWallet env) st)).trace ++ [⟨(passToAnalyze ((passToScan W st).foldl (scanWallet env) st)), ((passToScan W st).foldl (scanWallet env) st).grey, ((passToAnalyze ((passToScan W st).foldl (scanWallet env) st)).foldl (analyzeStep env flags W) ((passToScan W st).foldl (scanWallet env) st)).grey⟩] }
      else
        runLoop env flags W fuel
          { ((passToAnalyze ((passToScan W st).foldl (scanWallet env) st)).foldl (analyzeStep env flags W) ((passToScan W st).foldl (scanWallet env) st)) with trace := ((passToAnalyze ((passToScan W st).foldl (scanWallet env) st)).foldl (analyzeStep env flags W) ((passToScan W st).foldl (scanWallet env) st)).trace ++ [⟨(passToAnalyze ((passToScan W st).foldl (scanWallet env) st)), ((passToScan W st).foldl (scanWallet env) st).grey, ((passToAnalyze ((passToScan W st).foldl (scanWallet env) st)).foldl (analyzeStep env flags W) ((passToScan W st).foldl (scanWallet env) st)).grey⟩] }) := rfl

end TokenSuite

namespace TokenSuite

/-- The multi-pass loop preserves the run invariant; when it completes, the
whole monitored set has been scanned and the final recorded pass produced
zero net greylist growth. -/
theorem runLoop_main (env : PollEnv) (flags : Flags) (W grey0 : List String)
    (hfs : FrontierStable env) :
    ∀ (fuel : Nat) (st st' : RunState), RunInv env W grey0 st →
      runLoop env flags W fuel st = some st' →
      RunInv env W grey0 st'
      ∧ (∀ w, w ∈ unionL W st'.grey → w ∈ st'.scanned)
      ∧ (∃ p, st'.trace.getLast? = some p ∧ p.greyAfter = p.greyBefore) := by
  intro fuel
  induction fuel with
  | zero =>
      intro st st' _ h
      exact absurd h (by simp [runLoop])
  | succ fuel ih =>
      intro st st' hInv hrun
      rw [runLoop_succ_eq] at hrun
      by_cases h1 : passToScan W st = []
      · rw [if_pos h1] at hrun
        have hst' := (Option.some.inj hrun).symm
        subst hst'
        refine ⟨hInv, ?_, ?_⟩
        · intro w hw
          exact (passToScan_empty_iff W st).mp h1 w hw
        · exact ⟨⟨[], st.grey, st.grey⟩, List.getLast?_concat _, rfl⟩
      · rw [if_neg h1] at hrun
        obtain ⟨hnd, hpa, hnds, hts, hsuf, hprov, hP2⟩ := hInv
        obtain ⟨hp1, ha1, hg1, he1, ht1, hsc1, hall1, hnd1, hP1c⟩ :=
          scanFold_frame env hfs (passToScan W st) st
        have hInv₁ : RunInv env W grey0
            ((passToScan W st).foldl (scanWallet env) st) := by
          refine ⟨?_, ?_, hnd1 hnds, ?_, ?_, ?_, hP1c hP2⟩
          · rw [ha1]; exact hnd
          · intro s; rw [hp1, ha1]; exact hpa s
          · rw [he1, ha1]; exact hts
          · rw [hg1]; exact hsuf
          · intro x hx
            rw [hg1] at hx
            rcases hprov x hx with h | ⟨hw, sg, sn, am, hev⟩
            · exact Or.inl h
            · exact Or.inr ⟨hw, sg, sn, am, by rw [he1]; exact hev⟩
        by_cases h2 :
            passToAnalyze ((passToScan W st).foldl (scanWallet env) st) = []
        · rw [if_pos h2] at hrun
          refine ih _ st' ?_ hrun
          exact hInv₁
        · rw [if_neg h2] at hrun
          obtain ⟨hnd₁, hpa₁, hnds₁, hts₁, hsuf₁, hprov₁, hP2₁⟩ := hInv₁
          obtain ⟨hs2, hc2, ha2, ht2, han2, hp2, hg2, hl2, ⟨evs, hev, htsub⟩, hv2⟩ :=
            analyzeFold_frame env flags W
              (passToAnalyze ((passToScan W st).foldl (scanWallet env) st))
              ((passToScan W st).foldl (scanWallet env) st)
          have hInv₂ : RunInv env W grey0
              ((passToAnalyze ((passToScan W st).foldl (scanWallet env) st)).foldl
                (analyzeStep env flags W)
                ((passToScan W st).foldl (scanWallet env) st)) := by
            refine ⟨?_, ?_, ?_, ?_, ?_, ?_, ?_⟩
            · rw [han2]
              refine List.Nodup.append hnd₁ (nodup_passToAnalyze _ hnds₁) ?_
              intro x hxa hxt
              rcases (mem_passToAnalyze _ x).mp hxt with ⟨_, hnp⟩
              exact hnp ((hpa₁ x).mpr hxa)
            · intro s
              rw [hp2, han2]
              simp only [List.mem_append]
              rw [hpa₁ s]
            · rw [ha2]; exact hnds₁
            · rw [hev, han2, transferSigs_append]
              exact hts₁.append htsub
            · exact hsuf₁.trans hg2
            · intro x hx
              rcases hv2 x hx with hx1 | ⟨hw, sg, sn, am, hev'⟩
              · rcases hprov₁ x hx1 with h | ⟨hw, sg, sn, am, hev'⟩
                · exact Or.inl h
                · exact Or.inr ⟨hw, sg, sn, am, by
                    rw [hev]; exact List.mem_append_left _ hev'⟩
              · exact Or.inr ⟨hw, sg, sn, am, hev'⟩
            · intro w hw
              rw [hc2]
              rw [hs2] at hw
              exact hP2₁ w hw
          by_cases h3 :
              ((passToAnalyze ((passToScan W st).foldl (scanWallet env) st)).foldl
                (analyzeStep env flags W)
                ((passToScan W st).foldl (scanWallet env) st)).grey.length
              = ((passToScan W st).foldl (scanWallet env) st).grey.length
          · rw [if_pos h3] at hrun
            have hst' := (Option.some.inj hrun).symm
            subst hst'
            have hgeq := hl2 h3
            refine ⟨hInv₂, ?_, ?_⟩
            · intro w hw
              show w ∈ ((passToAnalyze _).foldl (analyzeStep env flags W) _).scanned
              rw [hs2]
              have hw' : w ∈ unionL W st.grey := by
                have : w ∈ unionL W
                    ((passToAnalyze ((passToScan W st).foldl (scanWallet env) st)).foldl
                      (analyzeStep env flags W)
                      ((passToScan W st).foldl (scanWallet env) st)).grey := hw
                rw [hgeq, hg1] at this
                exact this
              by_cases hsc : w ∈ st.scanned
              · exact (hsc1 w).mpr (Or.inl hsc)
              · exact (hsc1 w).mpr (Or.inr ((mem_passToScan W st w).mpr ⟨hw', hsc⟩))
            · refine ⟨⟨passToAnalyze ((passToScan W st).foldl (scanWallet env) st),
                ((passToScan W st).foldl (scanWallet env) st).grey,
                ((passToAnalyze ((passToScan W st).foldl (scanWallet env) st)).foldl
                  (analyzeStep env flags W)
                  ((passToScan W st).foldl (scanWallet env) st)).grey⟩,
                List.getLast?_concat _, hgeq⟩
          · rw [if_neg h3] at hrun
            refine ih _ st' ?_ hrun
            exact hInv₂

end TokenSuite

namespace TokenSuite

/-- A run started over a monitored set whose frontiers are all exhausted
terminates within two passes, analyzes nothing, and leaves the greylist
exactly as loaded. -/
theorem runLoop_second (env : PollEnv) (flags : Flags) (W grey₂ : List String)
    (cur₂ : List (String × String))
    (hemp : ∀ w, w ∈ unionL W grey₂ → env.fetchNew w (lookupC cur₂ w) = []) :
    ∃ stF, runLoop env flags W 2 (initState grey₂ cur₂) = some stF
      ∧ stF.grey = grey₂ ∧ stF.events = [] ∧ stF.analyzed = [] := by
  by_cases h1 : passToScan W (initState grey₂ cur₂) = []
  · refine ⟨{ initState grey₂ cur₂ with trace := [⟨[], grey₂, grey₂⟩] },
      ?_, rfl, rfl, rfl⟩
    show runLoop env flags W (1 + 1) (initState grey₂ cur₂) = some
      { initState grey₂ cur₂ with trace := [⟨[], grey₂, grey₂⟩] }
    rw [runLoop_succ_eq, if_pos h1]
    rfl
  · have hscan : ∀ w, w ∈ passToScan W (initState grey₂ cur₂) →
        env.fetchNew w (lookupC (initState grey₂ cur₂).cursor w) = [] := by
      intro w hw
      rcases (mem_passToScan _ _ w).mp hw with ⟨hm, _⟩
      exact hemp w hm
    have hfold := scanFold_empty env (passToScan W (initState grey₂ cur₂))
      (initState grey₂ cur₂) hscan
    have h2 : passToAnalyze ((passToScan W (initState grey₂ cur₂)).foldl
        (scanWallet env) (initState grey₂ cur₂)) = [] := by
      rw [hfold]
      rfl
    have hg : ((passToScan W (initState grey₂ cur₂)).foldl
        (scanWallet env) (initState grey₂ cur₂)).grey = grey₂ := by
      rw [hfold]
      rfl
    have hev : ((passToScan W (initState grey₂ cur₂)).foldl
        (scanWallet env) (initState grey₂ cur₂)).events = [] := by
      rw [hfold]
      rfl
    have han : ((passToScan W (initState grey₂ cur₂)).foldl
        (scanWallet env) (initState grey₂ cur₂)).analyzed = [] := by
      rw [hfold]
      rfl
    have hsc : ∀ w, w ∈ ((passToScan W (initState grey₂ cur₂)).foldl
        (scanWallet env) (initState grey₂ cur₂)).scanned ↔
        w ∈ passToScan W (initState grey₂ cur₂) := by
      intro w
      rw [hfold]
      show w ∈ (passToScan W (initState grey₂ cur₂)).foldl
        (fun acc w => acc.insert w) [] ↔ _
      rw [mem_foldl_insert]
      simp
    have e1 : runLoop env flags W (1 + 1) (initState grey₂ cur₂)
        = runLoop env flags W 1
          { (passToScan W (initState grey₂ cur₂)).foldl (scanWallet env)
              (initState grey₂ cur₂) with
            trace := ((passToScan W (initState grey₂ cur₂)).foldl (scanWallet env)
                (initState grey₂ cur₂)).trace
              ++ [⟨[], ((passToScan W (initState grey₂ cur₂)).foldl (scanWallet env)
                    (initState grey₂ cur₂)).grey,
                  ((passToScan W (initState grey₂ cur₂)).foldl (scanWallet env)
                    (initState grey₂ cur₂)).grey⟩] } := by
      rw [runLoop_succ_eq, if_neg h1, if_pos h2]
    have h1' : passToScan W
        { (passToScan W (initState grey₂ cur₂)).foldl (scanWallet env)
            (initState grey₂ cur₂) with
          trace := ((passToScan W (initState grey₂ cur₂)).foldl (scanWallet env)
              (initState grey₂ cur₂)).trace
            ++ [⟨[], ((passToScan W (initState grey₂ cur₂)).foldl (scanWallet env)
                  (initState grey₂ cur₂)).grey,
                ((passToScan W (initState grey₂ cur₂)).foldl (scanWallet env)
                  (initState grey₂ cur₂)).grey⟩] } = [] := by
      rw [passToScan_empty_iff]
      intro w hw
      have hwg : w ∈ unionL W grey₂ := by
        have : w ∈ unionL W ((passToScan W (initState grey₂ cur₂)).foldl
            (scanWallet env) (initState grey₂ cur₂)).grey := hw
        rw [hg] at this
        exact this
      show w ∈ ((passToScan W (initState grey₂ cur₂)).foldl
        (scanWallet env) (initState grey₂ cur₂)).scanned
      rw [hsc w]
      exact (mem_passToScan W (initState grey₂ cur₂) w).mpr
        ⟨hwg, List.not_mem_nil w⟩
    have e2 : runLoop env flags W 1
        { (passToScan W (initState grey₂ cur₂)).foldl (scanWallet env)
            (initState grey₂ cur₂) with
          trace := ((passToScan W (initState grey₂ cur₂)).foldl (scanWallet env)
              (initState grey₂ cur₂)).trace
            ++ [⟨[], ((passToScan W (initState grey₂ cur₂)).foldl (scanWallet env)
                  (initState grey₂ cur₂)).grey,
                ((passToScan W (initState grey₂ cur₂)).foldl (scanWallet env)
                  (initState grey₂ cur₂)).grey⟩] }
        = some { (passToScan W (initState grey₂ cur₂)).foldl (scanWallet env)
            (initState grey₂ cur₂) with
          trace := (((passToScan W (initState grey₂ cur₂)).foldl (scanWallet env)
              (initState grey₂ cur₂)).trace
            ++ [⟨[], ((passToScan W (initState grey₂ cur₂)).foldl (scanWallet env)
                  (initState grey₂ cur₂)).grey,
                ((passToScan W (initState grey₂ cur₂)).foldl (scanWallet env)
                  (initState grey₂ cur₂)).grey⟩])
            ++ [⟨[], ((passToScan W (initState grey₂ cur₂)).foldl (scanWallet env)
                  (initState grey₂ cur₂)).grey,
                ((passToScan W (initState grey₂ cur₂)).foldl (scanWallet env)
                  (initState grey₂ cur₂)).grey⟩] } := by
      show runLoop env flags W (0 + 1) _ = _
      rw [runLoop_succ_eq, if_pos h1']
    exact ⟨_, e1.trans e2, hg, hev, han⟩

end TokenSuite

namespace TokenSuite

/-! ## Frontier stability of the paginated fetch -/

theorem collectNew_result (hist : List String) (lk : Option String) :
    collectNew hist lk = hist
    ∨ ∃ b, lk = some b ∧ collectNew hist lk
        = hist.takeWhile (fun s => s != b) := by
  cases lk with
  | none =>
      left
      rw [collectNew_eq]
  | some b =>
      by_cases hb : b ∈ hist
      · right
        refine ⟨b, rfl, ?_⟩
        rw [collectNew_eq]
        simp [hb]
      · left
        rw [collectNew_eq]
        simp [hb]

theorem head?_takeWhile_eq {p : String → Bool} (l : List String) (y : String)
    (h : (l.takeWhile p).head? = some y) : l.head? = some y := by
  cases l with
  | nil => simp [List.takeWhile] at h
  | cons x t =>
      by_cases hp : p x = true
      · simp [List.takeWhile, hp] at h
        simp [h]
      · have hp' : p x = false := by
          cases hq : p x
          · rfl
          · exact absurd hq hp
        simp [List.takeWhile, hp'] at h

/-- The paginated fetch over a fixed history is frontier-stable: advancing
the cursor to the newest returned signature makes the next fetch empty. -/
theorem pollEnvOf_frontierStable (c : ChainState) :
    FrontierStable (pollEnvOf c) := by
  intro w cur lastSig hl
  show getNewSignaturesPaginated (c.histOf w) (some lastSig) = []
  cases hh : c.histOf w with
  | none => rfl
  | some hist =>
      have hl' : (getNewSignaturesPaginated (some hist) cur).getLast?
          = some lastSig := by
        have : (pollEnvOf c).fetchNew w cur
            = getNewSignaturesPaginated (c.histOf w) cur := rfl
        rw [this, hh] at hl
        exact hl
      have hhead : (collectNew hist cur).head? = some lastSig := by
        rw [show getNewSignaturesPaginated (some hist) cur
          = (collectNew hist cur).reverse from rfl] at hl'
        rw [List.getLast?_reverse] at hl'
        exact hl'
      have hxhead : hist.head? = some lastSig := by
        rcases collectNew_result hist cur with h | ⟨b, _, h⟩
        · rw [h] at hhead
          exact hhead
        · rw [h] at hhead
          exact head?_takeWhile_eq hist lastSig hhead
      cases hist with
      | nil => simp at hxhead
      | cons x t =>
          have hx : x = lastSig := by
            simp [List.head?] at hxhead
            exact hxhead
          subst hx
          show (collectNew (x :: t) (some x)).reverse = []
          rw [collectNew_eq]
          simp [List.takeWhile]

/-! ## `run_check` level facts -/

theorem runInv_init (env : PollEnv) (W grey0 : List String)
    (cursor0 : List (String × String)) :
    RunInv env W grey0 (initState grey0 cursor0) :=
  ⟨List.nodup_nil, fun _ => Iff.rfl, List.nodup_nil, List.nil_sublist _,
    List.suffix_refl _, fun x hx => Or.inl hx,
    fun w hw => absurd hw (List.not_mem_nil w)⟩

/-- A completed run satisfies the run invariant, has scanned the whole
final monitored set, and its final recorded pass produced zero net greylist
growth. -/
theorem run_check_main (env : PollEnv) (flags : Flags) (W grey0 : List String)
    (cursor0 : List (String × String)) (fuel : Nat) (st : RunState)
    (hfs : FrontierStable env)
    (h : run_check env flags W grey0 cursor0 fuel
      = some (RunOutcome.completed st)) :
    RunInv env W grey0 st
    ∧ (∀ w, w ∈ unionL W st.grey → w ∈ st.scanned)
    ∧ (∃ p, st.trace.getLast? = some p ∧ p.greyAfter = p.greyBefore)
    ∧ W ≠ [] := by
  unfold run_check at h
  by_cases hW : W = []
  · rw [if_pos hW] at h
    simp at h
  · rw [if_neg hW] at h
    cases hr : runLoop env flags W fuel (initState grey0 cursor0) with
    | none =>
        rw [hr] at h
        simp at h
    | some stf =>
        rw [hr] at h
        have hst : stf = st := RunOutcome.completed.inj (Option.some.inj h)
        subst hst
        have := runLoop_main env flags W grey0 hfs fuel
          (initState grey0 cursor0) stf (runInv_init env W grey0 cursor0) hr
        exact ⟨this.1, this.2.1, this.2.2, hW⟩

end TokenSuite

namespace TokenSuite

/-! ## Push-mode dedup deque -/

theorem aStr_inj {j k : Nat} (h : aStr j = aStr k) : j = k := by
  unfold aStr at h
  have hdata : List.replicate j 'a' = List.replicate k 'a' :=
    congrArg String.data h
  have : (List.replicate j 'a').length = (List.replicate k 'a').length := by
    rw [hdata]
  simpa using this

theorem dequeOf_subset (log : List String) : ∀ x, x ∈ dequeOf log → x ∈ log := by
  intro x hx
  exact List.drop_subset _ _ hx

theorem dequePush_dequeOf (log : List String) (x : String) :
    dequePush (dequeOf log) x = dequeOf (log ++ [x]) := by
  unfold dequePush dequeOf
  have hlen : (log.drop (log.length - dedupMaxlen)).length
      = log.length - (log.length - dedupMaxlen) := List.length_drop _ _
  by_cases h : log.length < dedupMaxlen
  · have h1 : log.length - dedupMaxlen = 0 := by omega
    have h2 : (log ++ [x]).length - dedupMaxlen = 0 := by
      rw [List.length_append]
      simp only [List.length_singleton]
      omega
    rw [h1, h2]
    simp only [List.drop_zero]
    rw [if_neg]
    rw [List.length_append]
    simp only [List.drop_zero, List.length_singleton]
    omega
  · push_neg at h
    have h1 : log.length - (log.length - dedupMaxlen) = dedupMaxlen := by omega
    rw [if_pos]
    · have hstep : log.drop (log.length - dedupMaxlen) ++ [x]
          = (log ++ [x]).drop (log.length - dedupMaxlen) := by
        rw [List.drop_append_of_le_length (by omega)]
      rw [List.length_append, hlen, h1]
      rw [hstep, List.drop_drop]
      congr 1
      rw [List.length_append]
      simp only [List.length_singleton]
      omega
    · rw [List.length_append, hlen, h1]
      simp only [List.length_singleton]
      omega

/-- Delivering pairwise distinct, not-yet-logged, relevant signatures:
every one of them is analyzed and appended to the log. -/
theorem pushFold_fresh (rel : String → Bool) :
    ∀ (l : List String) (log : List String),
      l.Nodup → (∀ x, x ∈ l → ¬ x ∈ log) → (∀ x, x ∈ l → rel x = true) →
      l.foldl (pushStep rel) (dequeOf log, log) = (dequeOf (log ++ l), log ++ l) := by
  intro l
  induction l with
  | nil => intro log _ _ _; simp
  | cons x t ih =>
      intro log hnd hfresh hrel
      have hxd : ¬ x ∈ dequeOf log := fun hc =>
        hfresh x (List.mem_cons_self _ _) (dequeOf_subset log x hc)
      have hstep : pushStep rel (dequeOf log, log) x
          = (dequeOf (log ++ [x]), log ++ [x]) := by
        unfold pushStep
        rw [if_neg hxd, if_pos (hrel x (List.mem_cons_self _ _))]
        rw [dequePush_dequeOf]
      show t.foldl (pushStep rel) (pushStep rel (dequeOf log, log) x) = _
      rw [hstep]
      rw [ih (log ++ [x]) (List.nodup_cons.mp hnd).2 ?fresh ?rel]
      · rw [List.append_assoc, List.singleton_append]
      · intro y hy
        rw [List.mem_append]
        rintro (hmem | hmem)
        · exact hfresh y (List.mem_cons_of_mem _ hy) hmem
        · rw [List.mem_singleton] at hmem
          exact (List.nodup_cons.mp hnd).1 (hmem ▸ hy)
      · intro y hy
        exact hrel y (List.mem_cons_of_mem _ hy)

/-- Under the bounded dedup, a signature is re-analyzed only after it falls
out of the deque; within `dedupMaxlen` analyzed signatures the log stays
duplicate-free. -/
theorem pushFold_nodup (rel : String → Bool) :
    ∀ (msgs : List String) (log : List String),
      log.Nodup → log.length + msgs.length ≤ dedupMaxlen →
      ((msgs.foldl (pushStep rel) (dequeOf log, log)).2).Nodup := by
  intro msgs
  induction msgs with
  | nil => intro log hnd _; simpa
  | cons x t ih =>
      intro log hnd hlen
      have hsmall : log.length - dedupMaxlen = 0 := by
        simp only [List.length_cons] at hlen
        omega
      have hdeq : dequeOf log = log := by
        unfold dequeOf
        rw [hsmall]
        exact List.drop_zero _
      by_cases hx : x ∈ dequeOf log
      · have hstep : pushStep rel (dequeOf log, log) x = (dequeOf log, log) := by
          unfold pushStep
          rw [if_pos hx]
        show ((t.foldl (pushStep rel) (pushStep rel (dequeOf log, log) x)).2).Nodup
        rw [hstep]
        refine ih log hnd ?_
        simp only [List.length_cons] at hlen
        omega
      · by_cases hr : rel x = true
        · have hstep : pushStep rel (dequeOf log, log) x
              = (dequeOf (log ++ [x]), log ++ [x]) := by
            unfold pushStep
            rw [if_neg hx, if_pos hr, dequePush_dequeOf]
          show ((t.foldl (pushStep rel) (pushStep rel (dequeOf log, log) x)).2).Nodup
          rw [hstep]
          refine ih (log ++ [x]) ?_ ?_
          · refine List.Nodup.append hnd (List.nodup_singleton x) ?_
            intro y hy hy'
            rw [List.mem_singleton] at hy'
            subst hy'
            refine hx ?_
            rw [hdeq]
            exact hy
          · rw [List.length_append]
            simp only [List.length_singleton, List.length_cons, List.length_nil]
              at hlen ⊢
            omega
        · have hr' : rel x = false := by
            cases hq : rel x
            · rfl
            · exact absurd hq hr
          have hstep : pushStep rel (dequeOf log, log) x = (dequeOf log, log) := by
            unfold pushStep
            rw [if_neg hx, hr']
            rfl
          show ((t.foldl (pushStep rel) (pushStep rel (dequeOf log, log) x)).2).Nodup
          rw [hstep]
          refine ih log hnd ?_
          simp only [List.length_cons] at hlen
          omega

end TokenSuite

namespace TokenSuite

/-! ## The last-wins shape of the delta scan -/

theorem getLast?_cons_eq {α : Type} (a : α) (l : List α) :
    (a :: l).getLast? = (match l.getLast? with
      | some x => some x
      | none => some a) := by
  cases l with
  | nil => rfl
  | cons b t =>
      rw [List.getLast?_cons_cons]
      cases hgl : (b :: t).getLast? with
      | none =>
          rcases List.exists_mem_of_ne_nil (b :: t) (by simp) with ⟨y, _⟩
          have : (b :: t) ≠ [] := by simp
          rw [List.getLast?_eq_getLast (b :: t) this] at hgl
          simp at hgl
      | some y => rfl

theorem pickSR_gen :
    ∀ (bal : List (String × Int)) (acc : Option String × Option String × Int),
      bal.foldl (fun acc p =>
          if p.2 < 0 then (some p.1, acc.2.1, -p.2)
          else if 0 < p.2 then (acc.1, some p.1, acc.2.2)
          else acc) acc
      = (orElseO (lastNegOwner bal) acc.1,
         orElseO (lastPosOwner bal) acc.2.1,
         (match (bal.filter (fun p => decide (p.2 < 0))).getLast? with
          | some p => -p.2
          | none => acc.2.2)) := by
  intro bal
  induction bal with
  | nil =>
      intro acc
      simp [lastNegOwner, lastPosOwner, orElseO]
  | cons p t ih =>
      intro acc
      rw [List.foldl_cons, ih]
      by_cases hn : p.2 < 0
      · rw [if_pos hn]
        have hfn : (p :: t).filter (fun q => decide (q.2 < 0))
            = p :: t.filter (fun q => decide (q.2 < 0)) := by
          rw [List.filter_cons, if_pos (by simpa using hn)]
        have hfp : (p :: t).filter (fun q => decide (0 < q.2))
            = t.filter (fun q => decide (0 < q.2)) := by
          rw [List.filter_cons, if_neg (by simp; omega)]
        unfold lastNegOwner lastPosOwner
        rw [hfn, hfp, getLast?_cons_eq]
        cases hgl : (t.filter (fun q => decide (q.2 < 0))).getLast? with
        | none => simp [orElseO]
        | some q => simp [orElseO]
      · rw [if_neg hn]
        have hfn : (p :: t).filter (fun q => decide (q.2 < 0))
            = t.filter (fun q => decide (q.2 < 0)) := by
          rw [List.filter_cons, if_neg (by simpa using hn)]
        by_cases hp : 0 < p.2
        · rw [if_pos hp]
          have hfp : (p :: t).filter (fun q => decide (0 < q.2))
              = p :: t.filter (fun q => decide (0 < q.2)) := by
            rw [List.filter_cons, if_pos (by simpa using hp)]
          unfold lastNegOwner lastPosOwner
          rw [hfn, hfp, getLast?_cons_eq]
          cases hgl : (t.filter (fun q => decide (0 < q.2))).getLast? with
          | none => simp [orElseO]
          | some q => simp [orElseO]
        · rw [if_neg hp]
          have hfp : (p :: t).filter (fun q => decide (0 < q.2))
              = t.filter (fun q => decide (0 < q.2)) := by
            rw [List.filter_cons, if_neg (by simpa using hp)]
          unfold lastNegOwner lastPosOwner
          rw [hfn, hfp]

theorem orElseO_none (a : Option String) : orElseO a none = a := by
  cases a <;> rfl

/-- The delta scan keeps only the last negative-delta owner as sender, the
last positive-delta owner as recipient, and the magnitude of the last
negative delta as amount. -/
theorem pickSR_eq (bal : List (String × Int)) :
    pickSR bal = (lastNegOwner bal, lastPosOwner bal, lastNegAmt bal) := by
  unfold pickSR lastNegAmt
  rw [pickSR_gen bal (none, none, 0), orElseO_none, orElseO_none]

end TokenSuite

namespace TokenSuite

/-! ## Claims -/

/-- C4: Signature frontier contract.  `get_new_signatures_paginated`
paginates the wallet's newest-first history in pages of 1000, stops when a
page contains the cursor's last-known signature or a page shorter than the
limit is returned, returns exactly the signatures collected before that
cutoff in chronological oldest-first order (the whole history reversed when
there is no cursor or its signature is absent), and on any unrecoverable
fetch error returns the empty list. -/
theorem C4_signature_frontier :
    (∀ lk : Option String, getNewSignaturesPaginated none lk = [])
    ∧ (∀ (hist : List String) (b : String), b ∈ hist →
        getNewSignaturesPaginated (some hist) (some b)
          = (hist.takeWhile (fun s => s != b)).reverse)
    ∧ (∀ (hist : List String) (b : String), ¬ b ∈ hist →
        getNewSignaturesPaginated (some hist) (some b) = hist.reverse)
    ∧ (∀ hist : List String,
        getNewSignaturesPaginated (some hist) none = hist.reverse) :=
  ⟨getNewSignaturesPaginated_error,
   getNewSignaturesPaginated_cursorMem,
   getNewSignaturesPaginated_cursorAbsent,
   getNewSignaturesPaginated_noCursor⟩

/-- Witness for C4 at a concrete three-signature history with the cursor at
the middle signature: exactly the one newer signature is returned. -/
theorem C4_signature_frontier_witness :
    getNewSignaturesPaginated (some ["s3", "s2", "s1"]) (some "s2") = ["s3"] := by
  have h := C4_signature_frontier.2.1 ["s3", "s2", "s1"] "s2" (by decide)
  rw [h]
  decide

/-- C10: Empty-whitelist no-op.  If the whitelist loads as the empty set,
`run_check` returns before any scanning, so the persisted greylist file,
the cursor-state file, and the audit ledger are all left unchanged by the
run. -/
theorem C10_empty_whitelist_noop (env : PollEnv) (flags : Flags)
    (grey0 : List String) (cursor0 : List (String × String)) (fuel : Nat) :
    run_check env flags [] grey0 cursor0 fuel = some RunOutcome.skipped
    ∧ (∀ o, run_check env flags [] grey0 cursor0 fuel = some o →
        savedGreylist o grey0 = grey0
        ∧ savedCursors o cursor0 = cursor0
        ∧ appendedEvents o = []) := by
  have h : run_check env flags [] grey0 cursor0 fuel = some RunOutcome.skipped := by
    unfold run_check
    rw [if_pos rfl]
  refine ⟨h, ?_⟩
  intro o ho
  have hoe : RunOutcome.skipped = o := Option.some.inj (h.symm.trans ho)
  subst hoe
  exact ⟨rfl, rfl, rfl⟩

/-- Witness for C10: a skipped run over the demo chain leaves a loaded
greylist, cursor file and ledger untouched. -/
theorem C10_empty_whitelist_noop_witness :
    run_check (pollEnvOf demoChain) noFreeze [] ["G"] [("A", "x")] 3
      = some RunOutcome.skipped
    ∧ savedGreylist RunOutcome.skipped ["G"] = ["G"]
    ∧ savedCursors RunOutcome.skipped [("A", "x")] = [("A", "x")]
    ∧ appendedEvents RunOutcome.skipped = [] := by
  have h := C10_empty_whitelist_noop (pollEnvOf demoChain) noFreeze ["G"]
    [("A", "x")] 3
  exact ⟨h.1, h.2 RunOutcome.skipped h.1⟩

end TokenSuite

namespace TokenSuite

/-- C2: Classification rule.  For the transfer reconstructed from a
signature analyzed after the prefix `pre` of the pass, the monitored set is
the live re-union of the whitelist and the greylist as of that moment (not
a pass-start snapshot): the transfer is AUTHORIZED iff the recipient is in
the whitelist or the current greylist; otherwise it is a VIOLATION and the
recipient joins the greylist immediately, before any signature of `post` is
classified. -/
theorem C2_classification_rule (env : PollEnv) (flags : Flags) (W : List String)
    (st0 st : RunState) (pre post : List String) (sig : String)
    (meta : TxMeta) (s r : String) (a : Int)
    (hst : st = pre.foldl (analyzeStep env flags W) st0)
    (hm : env.txMeta sig = some meta)
    (hrel : relevantTx env.mint meta = true)
    (hsr : pickSR (ownerBalances env.mint meta) = (some s, some r, a))
    (ha : 0 < a) :
    ((pre ++ sig :: post).foldl (analyzeStep env flags W) st0
      = post.foldl (analyzeStep env flags W) (analyzeStep env flags W st sig))
    ∧ ((r ∈ W ∨ r ∈ st.grey) →
        (analyzeStep env flags W st sig).grey = st.grey
        ∧ (analyzeStep env flags W st sig).events
          = st.events ++ [Event.transfer sig "AUTHORIZED_TRANSFER" s r (uiAmount a)])
    ∧ (¬ (r ∈ W ∨ r ∈ st.grey) →
        (analyzeStep env flags W st sig).grey = r :: st.grey
        ∧ (analyzeStep env flags W st sig).events
          = st.events ++ (violationFreezeEvents flags env.freezeSig s r
              ++ [Event.transfer sig "VIOLATION" s r (uiAmount a)])) := by
  have hred : analyzeTransaction env flags sig (unionL W st.grey) st.grey
      = analyzeTransfers flags env.freezeSig sig meta env.mint
          (unionL W st.grey) st.grey := by
    unfold analyzeTransaction
    rw [hm]
  have hpair := analyzeTransfers_pair flags env.freezeSig sig meta env.mint
    (unionL W st.grey) st.grey s r a hrel hsr
  rw [if_pos ha] at hpair
  refine ⟨?_, ?_, ?_⟩
  · rw [hst, List.foldl_append, List.foldl_cons]
  · intro hmem
    have hmon : r ∈ unionL W st.grey := (mem_unionL _ _ _).mpr hmem
    rw [if_pos hmon] at hpair
    constructor
    · show (analyzeTransaction env flags sig (unionL W st.grey) st.grey).1 = st.grey
      rw [hred, hpair]
    · show st.events
          ++ (analyzeTransaction env flags sig (unionL W st.grey) st.grey).2 = _
      rw [hred, hpair]
  · intro hmem
    have hmon : ¬ r ∈ unionL W st.grey := fun hc =>
      hmem ((mem_unionL _ _ _).mp hc)
    have hrg : ¬ r ∈ st.grey := fun hc => hmem (Or.inr hc)
    rw [if_neg hmon] at hpair
    constructor
    · show (analyzeTransaction env flags sig (unionL W st.grey) st.grey).1 = r :: st.grey
      rw [hred, hpair]
      show st.grey.insert r = r :: st.grey
      rw [List.insert_of_not_mem hrg]
    · show st.events
          ++ (analyzeTransaction env flags sig (unionL W st.grey) st.grey).2 = _
      rw [hred, hpair]

/-- Witness for C2: over the demo chain with only `A` whitelisted and an
empty greylist, signature `s1` (a transfer `A → B`) is classified VIOLATION
and `B` joins the greylist immediately. -/
theorem C2_classification_rule_witness :
    (analyzeStep (pollEnvOf demoChain) noFreeze ["A"] (initState [] []) "s1").grey
      = ["B"]
    ∧ (analyzeStep (pollEnvOf demoChain) noFreeze ["A"] (initState [] []) "s1").events
      = [Event.transfer "s1" "VIOLATION" "A" "B" (uiAmount 5)] := by
  have h := C2_classification_rule (pollEnvOf demoChain) noFreeze ["A"]
    (initState [] []) (initState [] []) [] [] "s1" simpleMeta "A" "B" 5
    rfl rfl (by decide) (by decide) (by decide)
  have h3 := h.2.2 (by decide)
  refine ⟨h3.1, ?_⟩
  rw [h3.2]
  decide

/-- C9: Greylist monotonicity.  Within a completed run over a fixed chain,
the loaded greylist is a suffix of the final one (the greylist never
shrinks, it only gains members), and every member either was loaded or is a
non-whitelisted recipient of a transfer recorded as a VIOLATION in the
run's ledger entries. -/
theorem C9_greylist_monotone (c : ChainState) (flags : Flags)
    (W grey0 : List String) (cursor0 : List (String × String)) (fuel : Nat)
    (st : RunState)
    (h : run_check (pollEnvOf c) flags W grey0 cursor0 fuel
      = some (RunOutcome.completed st)) :
    grey0 <:+ st.grey
    ∧ (∀ r, r ∈ st.grey → r ∈ grey0 ∨
        (¬ r ∈ W ∧ ∃ sg sn am,
          Event.transfer sg "VIOLATION" sn r am ∈ st.events)) := by
  have hmain := run_check_main (pollEnvOf c) flags W grey0 cursor0 fuel st
    (pollEnvOf_frontierStable c) h
  exact ⟨hmain.1.2.2.2.2.1, hmain.1.2.2.2.2.2.1⟩

/-- Witness for C9: the violation run over the demo chain grows the empty
greylist to exactly `["B"]`. -/
theorem C9_greylist_monotone_witness :
    ([] : List String) <:+ vRunFinal.grey ∧ vRunFinal.grey = ["B"] := by
  have h := C9_greylist_monotone demoChain noFreeze ["A"] [] [] 5 vRunFinal
    (by decide)
  exact ⟨h.1, by decide⟩

end TokenSuite

namespace TokenSuite

/-- C1 (amended): Fixed point of the propagation engine.  A completed run's
multi-pass loop ends only when a pass produces zero net greylist growth —
such an ending pass may still have discovered new signatures (see the
counterexample); and re-running the propagation over the unchanged chain
from the persisted greylist and cursors completes within two passes with
zero new greylist entries, zero ledger entries and zero analyzed
signatures (idempotence of the run on the greylist). -/
theorem C1_fixed_point (c : ChainState) (flags : Flags)
    (W grey0 : List String) (cursor0 : List (String × String)) (fuel : Nat)
    (st : RunState)
    (h : run_check (pollEnvOf c) flags W grey0 cursor0 fuel
      = some (RunOutcome.completed st)) :
    (∃ p, st.trace.getLast? = some p ∧ p.greyAfter = p.greyBefore)
    ∧ (∃ st₂, run_check (pollEnvOf c) flags W (sortStr st.grey) st.cursor 2
        = some (RunOutcome.completed st₂)
      ∧ st₂.grey = sortStr st.grey ∧ st₂.events = [] ∧ st₂.analyzed = []) := by
  obtain ⟨hInv, hP1, htrace, hW⟩ := run_check_main (pollEnvOf c) flags W grey0
    cursor0 fuel st (pollEnvOf_frontierStable c) h
  refine ⟨htrace, ?_⟩
  have hemp : ∀ w, w ∈ unionL W (sortStr st.grey) →
      (pollEnvOf c).fetchNew w (lookupC st.cursor w) = [] := by
    intro w hw
    have hw' : w ∈ unionL W st.grey := by
      rcases (mem_unionL _ _ _).mp hw with h' | h'
      · exact (mem_unionL _ _ _).mpr (Or.inl h')
      · exact (mem_unionL _ _ _).mpr (Or.inr ((mem_sortStr _ _).mp h'))
    exact hInv.2.2.2.2.2.2 w (hP1 w hw')
  obtain ⟨stF, hrun, hg, hev, han⟩ :=
    runLoop_second (pollEnvOf c) flags W (sortStr st.grey) st.cursor hemp
  refine ⟨stF, ?_, hg, hev, han⟩
  unfold run_check
  rw [if_neg hW, hrun]
  rfl

/-- Witness for C1: the demo run completes, and re-running it over the
persisted state changes nothing. -/
theorem C1_fixed_point_witness :
    run_check (pollEnvOf demoChain) noFreeze ["A", "B"]
        (sortStr demoRunFinal.grey) demoRunFinal.cursor 2
      = some (RunOutcome.completed demoSecondRun)
    ∧ demoSecondRun.grey = sortStr demoRunFinal.grey
    ∧ demoSecondRun.events = [] := by
  obtain ⟨_, st₂, hrun, hg, hev, _⟩ :=
    C1_fixed_point demoChain noFreeze ["A", "B"] [] [] 3 demoRunFinal (by decide)
  have hL : run_check (pollEnvOf demoChain) noFreeze ["A", "B"]
      (sortStr demoRunFinal.grey) demoRunFinal.cursor 2
      = some (RunOutcome.completed demoSecondRun) := by decide
  have he : st₂ = demoSecondRun :=
    RunOutcome.completed.inj (Option.some.inj (hrun.symm.trans hL))
  exact ⟨hL, he ▸ hg, he ▸ hev⟩

/-- Counterexample for C1 as stated: the demo run ends — its loop breaks in
its very first pass — even though that pass discovered the new signature
`s1`; the loop's ending pass need not have discovered zero new signatures,
it only needs zero net greylist growth. -/
theorem C1_counterexample :
    lastPassNewSigs (run_check (pollEnvOf demoChain) noFreeze ["A", "B"] [] [] 3)
      = some ["s1"]
    ∧ ¬ (["s1"] : List String) = [] := by decide

end TokenSuite

namespace TokenSuite

/-- C3 (amended): At-most-once analysis.  Within a single polling run no
signature is analyzed more than once and the appended transfer entries
carry pairwise distinct signatures; in push mode the dedup is bounded by
the 500-slot `processed_signatures` deque, so at-most-once holds whenever
at most 500 notifications are delivered in the monitor's lifetime (and can
fail beyond that — see the counterexample). -/
theorem C3_at_most_once (c : ChainState) (flags : Flags)
    (W grey0 : List String) (cursor0 : List (String × String)) (fuel : Nat)
    (st : RunState)
    (h : run_check (pollEnvOf c) flags W grey0 cursor0 fuel
      = some (RunOutcome.completed st)) :
    st.analyzed.Nodup
    ∧ (transferSigs st.events).Nodup
    ∧ (∀ (rel : String → Bool) (msgs : List String),
        msgs.length ≤ dedupMaxlen → ((pushRun rel msgs).2).Nodup) := by
  obtain ⟨⟨hnd, _, _, hsub, _, _, _⟩, _⟩ := run_check_main (pollEnvOf c) flags W
    grey0 cursor0 fuel st (pollEnvOf_frontierStable c) h
  refine ⟨hnd, hnd.sublist hsub, ?_⟩
  intro rel msgs hlen
  exact pushFold_nodup rel msgs [] List.nodup_nil (by simpa using hlen)

/-- Witness for C3: the violation run analyzes `s1` once and logs one
transfer entry for it; a short push stream stays duplicate-free. -/
theorem C3_at_most_once_witness :
    vRunFinal.analyzed.Nodup
    ∧ (transferSigs vRunFinal.events).Nodup
    ∧ ((pushRun (fun _ => true) ["x", "y"]).2).Nodup := by
  have h := C3_at_most_once demoChain noFreeze ["A"] [] [] 5 vRunFinal (by decide)
  exact ⟨h.1, h.2.1, h.2.2 (fun _ => true) ["x", "y"] (by decide)⟩

/-- Counterexample for C3 as stated: after one signature and 500 distinct
others, the push monitor's deque has evicted the first signature, so its
re-delivery is analyzed again — the analyzed log is the full stream and
contains the signature twice. -/
theorem C3_counterexample :
    (pushRun (fun _ => true) pushCexMsgs).2 = pushCexMsgs
    ∧ ¬ pushCexMsgs.Nodup := by
  have hinj : Function.Injective (fun k => aStr (k + 1)) := by
    intro a b hab
    have := aStr_inj hab
    omega
  have hmidnd : midSigs.Nodup := (List.nodup_range dedupMaxlen).map hinj
  have hmidlen : midSigs.length = dedupMaxlen := by
    unfold midSigs
    rw [List.length_map, List.length_range]
  have hmidfresh : ∀ x, x ∈ midSigs → x ≠ aStr 0 := by
    intro x hx
    rcases List.mem_map.mp hx with ⟨k, _, rfl⟩
    intro hc
    have := aStr_inj hc
    omega
  have hstep1 : pushStep (fun _ => true) (([] : List String), ([] : List String))
      (aStr 0) = ([aStr 0], [aStr 0]) := by
    unfold pushStep dequePush
    rw [if_neg (List.not_mem_nil _), if_pos rfl, if_neg]
    · rfl
    · simp [dedupMaxlen]
  have hfold : midSigs.foldl (pushStep (fun _ => true)) ([aStr 0], [aStr 0])
      = (dequeOf ([aStr 0] ++ midSigs), [aStr 0] ++ midSigs) := by
    have h0 : ([aStr 0] : List String) = dequeOf [aStr 0] := rfl
    conv_lhs => rw [show (([aStr 0], [aStr 0]) :
      List String × List String) = (dequeOf [aStr 0], [aStr 0]) from rfl]
    exact pushFold_fresh (fun _ => true) midSigs [aStr 0] hmidnd
      (fun x hx hc => hmidfresh x hx (List.mem_singleton.mp hc))
      (fun _ _ => rfl)
  have hdq : dequeOf ([aStr 0] ++ midSigs) = midSigs := by
    unfold dequeOf
    rw [List.length_append, List.length_singleton, hmidlen]
    have : 1 + dedupMaxlen - dedupMaxlen = 1 := by omega
    rw [this]
    rfl
  have hlast : pushStep (fun _ => true)
      (dequeOf ([aStr 0] ++ midSigs), [aStr 0] ++ midSigs) (aStr 0)
      = (dequePush (dequeOf ([aStr 0] ++ midSigs)) (aStr 0),
         ([aStr 0] ++ midSigs) ++ [aStr 0]) := by
    unfold pushStep
    rw [if_neg, if_pos rfl]
    rw [hdq]
    intro hc
    exact hmidfresh _ hc rfl
  have hrun : (pushRun (fun _ => true) pushCexMsgs).2 = pushCexMsgs := by
    unfold pushRun pushCexMsgs
    rw [List.foldl_cons, hstep1, List.foldl_append, hfold, List.foldl_cons,
      List.foldl_nil, hlast]
    show ([aStr 0] ++ midSigs) ++ [aStr 0] = aStr 0 :: (midSigs ++ [aStr 0])
    rw [List.append_assoc]
    rfl
  refine ⟨hrun, ?_⟩
  intro hnd
  rcases List.nodup_cons.mp hnd with ⟨hnm, _⟩
  exact hnm (List.mem_append_right _ (List.mem_singleton.mpr rfl))

end TokenSuite

namespace TokenSuite

/-- C5 (amended): Single-transfer reconstruction.  The delta scan of
a transaction keeps only the owner of the LAST negative balance change as
sender, the owner of the LAST positive change as recipient, and the
magnitude of the last negative change as amount — earlier movers are
silently overwritten — and consequently `_analyze_transfers` appends at
most one transfer ledger entry per transaction, whatever the metadata. -/
theorem C5_single_transfer_reconstruction :
    (∀ bal : List (String × Int),
      pickSR bal = (lastNegOwner bal, lastPosOwner bal, lastNegAmt bal))
    ∧ (∀ (flags : Flags) (fsig : String → Option String) (sig : String)
        (meta : TxMeta) (mint : String) (monitored grey : List String),
        (transferSigs
          (analyzeTransfers flags fsig sig meta mint monitored grey).2).length
          ≤ 1) := by
  refine ⟨pickSR_eq, ?_⟩
  intro flags fsig sig meta mint monitored grey
  rcases analyzeTransfers_cases flags fsig sig meta mint monitored grey with
    heq | ⟨s, r, a, _, _, _, ⟨_, heq⟩ | ⟨_, heq⟩⟩
  · rw [heq]
    exact Nat.le_of_lt Nat.one_pos
  · rw [heq]
    exact Nat.le_refl 1
  · rw [heq]
    show (transferSigs (violationFreezeEvents flags fsig s r
      ++ [Event.transfer sig "VIOLATION" s r (uiAmount a)])).length ≤ 1
    rw [transferSigs_append, transferSigs_violationFreezeEvents]
    exact Nat.le_refl 1

/-- Counterexample for C5 as stated: a four-party transaction (two senders
`A`, `B`; two recipients `C`, `D`) has two negative and two positive
deltas, yet the analyzer reconstructs only the single pair `B → D` with
`B`'s magnitude and logs exactly one entry — the movements of `A` and `C`
are dropped. -/
theorem C5_counterexample :
    ((ownerBalances "M" multiMeta).filter (fun p => decide (p.2 < 0))).length = 2
    ∧ ((ownerBalances "M" multiMeta).filter (fun p => decide (0 < p.2))).length = 2
    ∧ analyzeTransfers noFreeze (fun _ => none) "s1" multiMeta "M"
        ["A", "B", "C", "D"] []
      = ([], [Event.transfer "s1" "AUTHORIZED_TRANSFER" "B" "D" (uiAmount 3)]) := by
  decide

end TokenSuite

namespace TokenSuite

theorem ratAbs_eq_abs (q : ℚ) : ratAbs q = |q| := by
  unfold ratAbs
  by_cases h : q < 0
  · rw [if_pos h, abs_of_neg h]
  · rw [if_neg h, abs_of_nonneg (not_lt.mp h)]

theorem tol_eq : Rat.divInt 1 10000 = 1 / 10000 := by
  rw [Rat.divInt_eq_div]
  norm_num

theorem supplyValidationOk_iff (payer : String) (bal : String → ℚ)
    (ledger : List Event) (monitored : List String) :
    supplyValidationOk payer bal ledger monitored = true
      ↔ |totalDistributed payer ledger - totalOnChain bal monitored|
          < 1 / 10000 := by
  unfold supplyValidationOk
  rw [decide_eq_true_eq, ratAbs_eq_abs, tol_eq]

theorem foldl_add_congr (f g : String → ℚ) (l : List String)
    (h : ∀ w, w ∈ l → f w = g w) :
    ∀ acc : ℚ,
      l.foldl (fun a w => a + f w) acc = l.foldl (fun a w => a + g w) acc := by
  induction l with
  | nil => intro acc; rfl
  | cons x t ih =>
      intro acc
      rw [List.foldl_cons, List.foldl_cons, h x (List.mem_cons_self x t)]
      exact ih (fun w hw => h w (List.mem_cons_of_mem x hw)) _

theorem totalDistributed_cLedger : totalDistributed "P" cLedger = 3 := by
  show (if ("AUTHORIZED_TRANSFER" = "VIOLATION" ∨
      "AUTHORIZED_TRANSFER" = "AUTHORIZED_TRANSFER") ∧ ("P" : String) = "P"
    then (0 : ℚ) + 3 else 0) = 3
  rw [if_pos ⟨Or.inr rfl, rfl⟩, zero_add]

theorem totalOnChain_cBal : totalOnChain cBal ["P", "B"] = 8 := by
  show ((0 : ℚ) + (if ("P" : String) = "P" then (5 : ℚ)
      else if ("P" : String) = "B" then 3 else 0))
    + (if ("B" : String) = "P" then (5 : ℚ)
      else if ("B" : String) = "B" then 3 else 0) = 8
  rw [if_pos rfl, if_neg (by decide), if_pos rfl]
  norm_num

theorem totalOnChain_cBalZero : totalOnChain cBalZero ["P", "B"] = 3 := by
  show ((0 : ℚ) + (if ("P" : String) = "B" then (3 : ℚ) else 0))
    + (if ("B" : String) = "B" then (3 : ℚ) else 0) = 3
  rw [if_neg (by decide), if_pos rfl]
  norm_num

theorem cBal_P : cBal "P" = 5 := by
  show (if ("P" : String) = "P" then (5 : ℚ)
    else if ("P" : String) = "B" then 3 else 0) = 5
  rw [if_pos rfl]

theorem cBalZero_P : cBalZero "P" = 0 := by
  show (if ("P" : String) = "B" then (3 : ℚ) else 0) = 0
  rw [if_neg (by decide)]

/-- C6 (amended): Supply reconciliation.  The validation succeeds exactly
when the absolute difference between the ledger's distributed total and the
sum of live balances over the monitored set is below `1e-4`; the issuer's
own balance is never subtracted, so the spec's formula agrees with the code
only when the issuer wallet holds zero or sits outside the summed set. -/
theorem C6_reconciliation_formula :
    (∀ (payer : String) (bal : String → ℚ) (ledger : List Event)
        (monitored : List String),
      supplyValidationOk payer bal ledger monitored = true
        ↔ |totalDistributed payer ledger - totalOnChain bal monitored|
            < 1 / 10000)
    ∧ (∀ (payer : String) (bal : String → ℚ) (ledger : List Event)
        (monitored : List String), bal payer = 0 →
      (supplyValidationOk payer bal ledger monitored = true
        ↔ |totalDistributed payer ledger
            - (totalOnChain bal monitored - bal payer)| < 1 / 10000))
    ∧ (∀ (payer : String) (bal : String → ℚ) (monitored : List String),
        ¬ payer ∈ monitored →
      totalOnChain bal monitored
        = totalOnChain (fun w => if w = payer then 0 else bal w) monitored) := by
  refine ⟨fun payer bal ledger monitored =>
    supplyValidationOk_iff payer bal ledger monitored, ?_, ?_⟩
  · intro payer bal ledger monitored hz
    rw [hz, sub_zero]
    exact supplyValidationOk_iff payer bal ledger monitored
  · intro payer bal monitored hp
    unfold totalOnChain
    refine foldl_add_congr bal _ monitored (fun w hw => ?_) 0
    rw [if_neg]
    intro hc
    rw [hc] at hw
    exact hp hw

/-- Witness for C6: with the issuer fully distributed (`P` holds 0) the
validation succeeds on a matching ledger, and removing an issuer outside
the monitored set does not change the on-chain total. -/
theorem C6_reconciliation_formula_witness :
    cBalZero "P" = 0
    ∧ supplyValidationOk "P" cBalZero cLedger ["P", "B"] = true
    ∧ ¬ "P" ∈ (["B"] : List String)
    ∧ totalOnChain cBal ["B"]
        = totalOnChain (fun w => if w = "P" then 0 else cBal w) ["B"] := by
  refine ⟨cBalZero_P, ?_, by decide,
    C6_reconciliation_formula.2.2 "P" cBal ["B"] (by decide)⟩
  refine (C6_reconciliation_formula.2.1 "P" cBalZero cLedger ["P", "B"]
    cBalZero_P).mpr ?_
  rw [totalDistributed_cLedger, totalOnChain_cBalZero, cBalZero_P]
  rw [show (3 : ℚ) - (3 - 0) = 0 by norm_num, abs_zero]
  norm_num

/-- Counterexample for C6 as stated: issuer `P` still holds 5 tokens and is
in the monitored set; the spec's formula (subtracting the issuer balance)
is satisfied, yet the code's validation — which never subtracts it —
fails. -/
theorem C6_counterexample :
    supplyValidationOk "P" cBal cLedger ["P", "B"] = false
    ∧ |totalDistributed "P" cLedger
        - (totalOnChain cBal ["P", "B"] - cBal "P")| < 1 / 10000 := by
  constructor
  · unfold supplyValidationOk
    rw [decide_eq_false_iff_not, ratAbs_eq_abs, tol_eq,
      totalDistributed_cLedger, totalOnChain_cBal]
    rw [show (3 : ℚ) - 8 = -5 by norm_num,
      abs_of_neg (by norm_num : (-5 : ℚ) < 0)]
    norm_num
  · rw [totalDistributed_cLedger, totalOnChain_cBal, cBal_P]
    rw [show (3 : ℚ) - (8 - 5) = 0 by norm_num, abs_zero]
    norm_num

end TokenSuite

namespace TokenSuite

/-- C7 (amended): Mode agreement.  For a reconstructed transfer the two
ingestion modes agree whenever the recipient's greylist membership does not
matter: a whitelisted recipient is authorized in both, and a recipient on
neither list yields a violation entry in both.  They diverge on a
greylisted, non-whitelisted recipient: the polling analyzer checks the
union of whitelist and greylist and logs AUTHORIZED_TRANSFER, while the
push monitor checks the whitelist alone and classifies VIOLATION_FROZEN. -/
theorem C7_mode_equivalence (flags : Flags) (fsig : String → Option String)
    (sig : String) (meta : TxMeta) (mint : String) (W G : List String)
    (s r : String) (a : Int)
    (hrel : relevantTx mint meta = true)
    (hsr : pickSR (ownerBalances mint meta) = (some s, some r, a))
    (ha : 0 < a) :
    (r ∈ W →
      (analyzeTransfers flags fsig sig meta mint (unionL W G) G).2
        = [Event.transfer sig "AUTHORIZED_TRANSFER" s r (uiAmount a)]
      ∧ isAuthorizedStatus (pushTransferStatus W r) = true)
    ∧ (¬ r ∈ W → ¬ r ∈ G →
      (analyzeTransfers flags fsig sig meta mint (unionL W G) G).2.getLast?
        = some (Event.transfer sig "VIOLATION" s r (uiAmount a))
      ∧ isAuthorizedStatus (pushTransferStatus W r) = false)
    ∧ (¬ r ∈ W → r ∈ G →
      (analyzeTransfers flags fsig sig meta mint (unionL W G) G).2
        = [Event.transfer sig "AUTHORIZED_TRANSFER" s r (uiAmount a)]
      ∧ pushTransferStatus W r = "VIOLATION_FROZEN") := by
  have hpair := analyzeTransfers_pair flags fsig sig meta mint (unionL W G) G
    s r a hrel hsr
  rw [if_pos ha] at hpair
  refine ⟨fun hrW => ?_, fun hrW hrG => ?_, fun hrW hrG => ?_⟩
  · have hmem : r ∈ unionL W G := (mem_unionL W G r).mpr (Or.inl hrW)
    rw [if_pos hmem] at hpair
    rw [hpair]
    refine ⟨rfl, ?_⟩
    unfold pushTransferStatus
    rw [if_pos hrW]
    decide
  · have hmem : ¬ r ∈ unionL W G := by
      intro hc
      rcases (mem_unionL W G r).mp hc with h | h
      · exact hrW h
      · exact hrG h
    rw [if_neg hmem] at hpair
    rw [hpair]
    refine ⟨List.getLast?_concat _, ?_⟩
    unfold pushTransferStatus
    rw [if_neg hrW]
    decide
  · have hmem : r ∈ unionL W G := (mem_unionL W G r).mpr (Or.inr hrG)
    rw [if_pos hmem] at hpair
    rw [hpair]
    refine ⟨rfl, ?_⟩
    unfold pushTransferStatus
    rw [if_neg hrW]

/-- Witness for C7: the `A → B` transfer with `B` whitelisted is authorized
by both modes. -/
theorem C7_mode_equivalence_witness :
    (analyzeTransfers noFreeze (fun _ => none) "s1" simpleMeta "M"
        (unionL ["A", "B"] []) []).2
      = [Event.transfer "s1" "AUTHORIZED_TRANSFER" "A" "B" (uiAmount 5)]
    ∧ isAuthorizedStatus (pushTransferStatus ["A", "B"] "B") = true := by
  exact (C7_mode_equivalence noFreeze (fun _ => none) "s1" simpleMeta "M"
    ["A", "B"] [] "A" "B" 5 (by decide) (by decide) (by decide)).1 (by decide)

/-- Counterexample for C7 as stated: recipient `B` is greylisted but not
whitelisted; the polling analyzer logs the transfer as
AUTHORIZED_TRANSFER while the push monitor classifies the same transfer as
VIOLATION_FROZEN — the modes disagree. -/
theorem C7_counterexample :
    (analyzeTransfers noFreeze (fun _ => none) "s1" simpleMeta "M"
        (unionL ["A"] ["B"]) ["B"]).2
      = [Event.transfer "s1" "AUTHORIZED_TRANSFER" "A" "B" (uiAmount 5)]
    ∧ pushTransferStatus ["A"] "B" = "VIOLATION_FROZEN"
    ∧ isAuthorizedStatus "AUTHORIZED_TRANSFER" = true
    ∧ isAuthorizedStatus "VIOLATION_FROZEN" = false := by
  decide

end TokenSuite

namespace TokenSuite

/-- C8 (amended): Violation handling with `--freezereceive`.  On a
violation the recipient is greylisted and the recipient's account is
frozen, with the FROZEN_BY_SCRIPT ledger entry appended BEFORE the
VIOLATION transfer entry — the freeze actions run and log first, then the
violation entry is written. -/
theorem C8_violation_freeze_order (fsig : String → Option String)
    (sig : String) (meta : TxMeta) (mint : String) (monitored grey : List String)
    (s r f : String) (a : Int)
    (hrel : relevantTx mint meta = true)
    (hsr : pickSR (ownerBalances mint meta) = (some s, some r, a))
    (ha : 0 < a)
    (hr : ¬ r ∈ monitored)
    (hf : fsig r = some f) :
    analyzeTransfers ⟨false, true⟩ fsig sig meta mint monitored grey
      = (grey.insert r,
         [Event.frozenByScript f r,
          Event.transfer sig "VIOLATION" s r (uiAmount a)]) := by
  have hv : violationFreezeEvents ⟨false, true⟩ fsig s r
      = [Event.frozenByScript f r] := by
    unfold violationFreezeEvents freezeEventsFor
    rw [if_neg (by decide), if_pos (by decide), hf]
    rfl
  rw [analyzeTransfers_pair ⟨false, true⟩ fsig sig meta mint monitored grey
    s r a hrel hsr, if_pos ha, if_neg hr, hv]
  rfl

/-- Witness for C8: the `A → B` transfer with only `A` monitored and a
successful freeze of `B` yields the greylist `["B"]` and the two entries in
freeze-first order. -/
theorem C8_violation_freeze_order_witness :
    analyzeTransfers ⟨false, true⟩
        (fun w => if w = "B" then some "fz1" else none) "s1" simpleMeta "M"
        ["A"] []
      = (["B"],
         [Event.frozenByScript "fz1" "B",
          Event.transfer "s1" "VIOLATION" "A" "B" (uiAmount 5)]) := by
  exact (C8_violation_freeze_order
    (fun w => if w = "B" then some "fz1" else none) "s1" simpleMeta "M" ["A"] []
    "A" "B" "fz1" 5 (by decide) (by decide) (by decide) (by decide)
    (by decide)).trans (by decide)

/-- Counterexample for C8 as stated: in the appended ledger the
FROZEN_BY_SCRIPT entry sits at a strictly smaller index than the VIOLATION
entry, so the violation entry is NOT written before the freeze entry. -/
theorem C8_counterexample :
    (analyzeTransfers ⟨false, true⟩
        (fun w => if w = "B" then some "fz1" else none) "s1" simpleMeta "M"
        ["A"] []).2.indexOf (Event.frozenByScript "fz1" "B")
      < (analyzeTransfers ⟨false, true⟩
        (fun w => if w = "B" then some "fz1" else none) "s1" simpleMeta "M"
        ["A"] []).2.indexOf
          (Event.transfer "s1" "VIOLATION" "A" "B" (uiAmount 5))
    ∧ Event.frozenByScript "fz1" "B"
        ∈ (analyzeTransfers ⟨false, true⟩
            (fun w => if w = "B" then some "fz1" else none) "s1" simpleMeta "M"
            ["A"] []).2
    ∧ Event.transfer "s1" "VIOLATION" "A" "B" (uiAmount 5)
        ∈ (analyzeTransfers ⟨false, true⟩
            (fun w => if w = "B" then some "fz1" else none) "s1" simpleMeta "M"
            ["A"] []).2 := by
  decide

end TokenSuite
